import Mathlib

/-!
Verification development for the klpbbs forum scraper
(src/苦力怕脚本获取.py, class KlpbbsScraper).

The scraper is embedded shallowly:

* timestamps are integers counting seconds since the Unix epoch
  (Python datetime objects; the sub-second component of datetime.now()
  plays no role in any modelled computation);
* Python floats are modelled as rationals; the modelled operations
  (division, round to two decimals, comparisons) are exact on every
  value the claims touch;
* Python strings are lists of characters; the regular-expression and
  substring operations used by the scraper are hand-translated with
  their leftmost-match semantics; the Unicode digit classes of Python
  (str.isdigit, regex \d) are modelled by the ASCII digit class, which
  coincides with them on all inputs considered here;
* the float +infinity sentinels stored in the record for unparseable
  dates are modelled as the top element of WithTop Rat.
-/

namespace Klpbbs

/-! ### Character-list primitives (Python string operations) -/

/-- Whitespace predicate used to model Python str.strip. -/
def isSpaceChar (c : Char) : Bool := c.isWhitespace

/-- Models Python str.strip(): drop whitespace from both ends. -/
def pyStripChars (cs : List Char) : List Char :=
  ((cs.dropWhile isSpaceChar).reverse.dropWhile isSpaceChar).reverse

/-- Decides whether the second list starts with the first. -/
def isPrefixList : List Char → List Char → Bool
  | [], _ => true
  | _ :: _, [] => false
  | a :: as, b :: bs => a = b && isPrefixList as bs

/-- Models the Python substring test (needle in haystack). -/
def containsSub (needle : List Char) : List Char → Bool
  | [] => isPrefixList needle []
  | c :: rest => isPrefixList needle (c :: rest) || containsSub needle rest

/-- Numeric value of a list of ASCII digit characters, most significant first. -/
def charsToNatVal (ds : List Char) : Nat :=
  ds.foldl (fun a c => a * 10 + (c.toNat - 48)) 0

/-- Models re.search with pattern (\d+): the leftmost maximal digit run,
returned as its numeric value, or none when the string has no digit. -/
def findFirstNat : List Char → Option Nat
  | [] => none
  | c :: rest =>
      if c.isDigit then some (charsToNatVal ((c :: rest).takeWhile Char.isDigit))
      else findFirstNat rest

/-- Models re.search with pattern (\d{2}:\d{2}): the leftmost position where
two digits, a colon and two digits occur, returned as the two two-digit
numbers (hours and minutes of the embedded HH:MM). -/
def findHHMM : List Char → Option (Nat × Nat)
  | a :: b :: c :: d :: e :: rest =>
      if a.isDigit && b.isDigit && c = ':' && d.isDigit && e.isDigit then
        some ((a.toNat - 48) * 10 + (b.toNat - 48), (d.toNat - 48) * 10 + (e.toNat - 48))
      else findHHMM (b :: c :: d :: e :: rest)
  | _ => none

/-- Decimal digit characters of a natural number, as Python str(n) renders it. -/
def natToChars (n : Nat) : List Char :=
  if n = 0 then ['0']
  else (Nat.digits 10 n).reverse.map (fun d => Char.ofNat (48 + d))

/-! ### Calendar arithmetic for the strict date formats

CPython strptime accepts the formats %Y-%m-%d %H:%M and %Y-%m-%d used by the
scraper; the model below accepts the zero-padded renderings of these formats
(the forum emits zero-padded dates; no claim depends on the non-padded forms
CPython also tolerates). -/

/-- Leap-year rule of the proleptic Gregorian calendar used by datetime. -/
def isLeapYear (y : Int) : Bool := y % 4 = 0 && (y % 100 ≠ 0 || y % 400 = 0)

/-- Number of days of a month, matching the validation done by strptime. -/
def daysInMonth (y m : Int) : Int :=
  if m = 2 then (if isLeapYear y then 29 else 28)
  else if m = 4 || m = 6 || m = 9 || m = 11 then 30
  else 31

/-- Days from 1970-01-01 to the given civil date (standard civil-from-days
conversion for the proleptic Gregorian calendar). -/
def daysFromCivil (y m d : Int) : Int :=
  let y' := y - (if m ≤ 2 then 1 else 0)
  let era := Int.fdiv y' 400
  let yoe := y' - era * 400
  let mp := Int.emod (m + 9) 12
  let doy := Int.fdiv (153 * mp + 2) 5 + d - 1
  let doe := yoe * 365 + Int.fdiv yoe 4 - Int.fdiv yoe 100 + doy
  era * 146097 + doe - 719468

/-- Digit-character guard for the fixed-width date fields. -/
def allDigits (cs : List Char) : Bool := cs.all Char.isDigit

/-- Models datetime.strptime(s, given the format %Y-%m-%d): a ten-character
zero-padded date, validated exactly as datetime does (year at least 1, month
1..12, day within the month), returning midnight of that day in epoch
seconds. -/
def strptimeDateChars (cs : List Char) : Option Int :=
  match cs with
  | [y1, y2, y3, y4, '-', m1, m2, '-', d1, d2] =>
      if allDigits [y1, y2, y3, y4, m1, m2, d1, d2] then
        let y : Int := Int.ofNat (charsToNatVal [y1, y2, y3, y4])
        let m : Int := Int.ofNat (charsToNatVal [m1, m2])
        let d : Int := Int.ofNat (charsToNatVal [d1, d2])
        if 1 ≤ y ∧ 1 ≤ m ∧ m ≤ 12 ∧ 1 ≤ d ∧ d ≤ daysInMonth y m then
          some (daysFromCivil y m d * 86400)
        else none
      else none
  | _ => none

/-- Models datetime.strptime(s, given the format %Y-%m-%d %H:%M) under the
same conventions as strptimeDateChars. -/
def strptimeDateTimeChars (cs : List Char) : Option Int :=
  match cs with
  | [y1, y2, y3, y4, '-', m1, m2, '-', d1, d2, ' ', h1, h2, ':', n1, n2] =>
      if allDigits [y1, y2, y3, y4, m1, m2, d1, d2, h1, h2, n1, n2] then
        let y : Int := Int.ofNat (charsToNatVal [y1, y2, y3, y4])
        let m : Int := Int.ofNat (charsToNatVal [m1, m2])
        let d : Int := Int.ofNat (charsToNatVal [d1, d2])
        let hh : Nat := charsToNatVal [h1, h2]
        let mm : Nat := charsToNatVal [n1, n2]
        if 1 ≤ y ∧ 1 ≤ m ∧ m ≤ 12 ∧ 1 ≤ d ∧ d ≤ daysInMonth y m ∧ hh ≤ 23 ∧ mm ≤ 59 then
          some (daysFromCivil y m d * 86400 + hh * 3600 + mm * 60)
        else none
      else none
  | _ => none

/-! ### The date normalizer (KlpbbsScraper._parse_human_readable_date) -/

/-- Fallback of the except-branch: datetime.strptime(date_str, %Y-%m-%d),
returning None (here none) when that also raises ValueError. -/
def dateFallback (cs : List Char) : Option Int := strptimeDateChars cs

/-- Models KlpbbsScraper._parse_human_readable_date, translated branch by
branch from the source (lines 116-142).  The anchor now is self.now in epoch
seconds; the calendar date of the anchor is Int.fdiv now 86400, its day
number, so that now.date() - timedelta(days=k) combined with a parsed HH:MM
is (Int.fdiv now 86400 - k) * 86400 + hh * 3600 + mm * 60.  The branches that
raise ValueError or AttributeError (missing regex match, or an HH:MM that
datetime.strptime rejects, hours above 23 or minutes above 59) fall through
to the except-branch, which attempts the strict %Y-%m-%d parse of the whole
string and yields none on failure. -/
def parse_human_readable_date (now : Int) (dateStr : String) : Option Int :=
  let s := pyStripChars dateStr.data
  if containsSub "昨天".data s then
    match findHHMM s with
    | some (hh, mm) =>
        if hh ≤ 23 ∧ mm ≤ 59 then
          some ((Int.fdiv now 86400 - 1) * 86400 + hh * 3600 + mm * 60)
        else dateFallback s
    | none => dateFallback s
  else if containsSub "前天".data s then
    match findHHMM s with
    | some (hh, mm) =>
        if hh ≤ 23 ∧ mm ≤ 59 then
          some ((Int.fdiv now 86400 - 2) * 86400 + hh * 3600 + mm * 60)
        else dateFallback s
    | none => dateFallback s
  else if containsSub "小时前".data s then
    match findFirstNat s with
    | some hours => some (now - hours * 3600)
    | none => dateFallback s
  else if containsSub "分钟前".data s then
    match findFirstNat s with
    | some minutes => some (now - minutes * 60)
    | none => dateFallback s
  else if containsSub "天前".data s then
    match findFirstNat s with
    | some days => some (now - days * 86400)
    | none => dateFallback s
  else
    match strptimeDateTimeChars s with
    | some t => some t
    | none => dateFallback s

/-! ### Metrics (KlpbbsScraper._format_timedelta and the daily-views rounding) -/

/-- Models Python round-half-to-even of a rational to an integer (the tie-break
used by the builtin round; the binary-float representation error of CPython is
not modelled, the quantities the claims evaluate are exact in both models). -/
def roundHalfToEven (q : ℚ) : ℤ :=
  let f := ⌊q⌋
  if q - f < 1 / 2 then f
  else if (1 : ℚ) / 2 < q - f then f + 1
  else if f % 2 = 0 then f else f + 1

/-- Models Python round(x, 2). -/
def pyRound2 (q : ℚ) : ℚ := (roundHalfToEven (q * 100) : ℚ) / 100

/-- Models Python int() applied to a float: truncation toward zero. -/
def pyInt (q : ℚ) : ℤ := if 0 ≤ q then ⌊q⌋ else -⌊-q⌋

/-- Models KlpbbsScraper._format_timedelta (lines 144-150).  A timedelta is its
total seconds; datetime normalizes it to days = floor(total / 86400) and
seconds = total mod 86400 in [0, 86400), which divmod splits into hours and
minutes. -/
def format_timedelta (td : Int) : String :=
  let days := Int.fdiv td 86400
  let secs := Int.emod td 86400
  let hours := Int.fdiv secs 3600
  let remainder := Int.emod secs 3600
  let minutes := Int.fdiv remainder 60
  if days > 0 then toString days ++ "天 " ++ toString hours ++ "小时"
  else if hours > 0 then toString hours ++ "小时 " ++ toString minutes ++ "分钟"
  else toString minutes ++ "分钟"

/-! ### Color interpolation (KlpbbsScraper._get_color_from_value) -/

/-- Lowercase hexadecimal digit for a value below 16. -/
def hexDigit (n : Nat) : Char :=
  if n < 10 then Char.ofNat (48 + n) else Char.ofNat (87 + n)

/-- Lowercase hexadecimal digits of a natural number. -/
def hexChars (n : Nat) : List Char :=
  if n = 0 then ['0'] else (Nat.digits 16 n).reverse.map hexDigit

/-- Zero-pad to width two, as the format 02x does. -/
def pad2 (cs : List Char) : List Char := if cs.length < 2 then '0' :: cs else cs

/-- Models the Python format expression with 02x applied to an integer: the
zero-padded lowercase hex of a non-negative value, and a minus sign followed
by the hex magnitude for a negative one. -/
def hex2Int (z : Int) : String :=
  if z < 0 then String.mk ('-' :: hexChars z.natAbs)
  else String.mk (pad2 (hexChars z.toNat))

/-- Hex rendering of an RGB triple, as the join of three 02x fields. -/
def colorHex (c : Nat × Nat × Nat) : String :=
  hex2Int c.1 ++ hex2Int c.2.1 ++ hex2Int c.2.2

/-- Models KlpbbsScraper._get_color_from_value (lines 152-158), with floats as
rationals: the degenerate max = min case returns the start color, otherwise
each channel is int(start + (end - start) * percentage). -/
def get_color_from_value (value minVal maxVal : ℚ)
    (startColor endColor : Nat × Nat × Nat) : String :=
  if maxVal = minVal then colorHex startColor
  else
    let percentage := (value - minVal) / (maxVal - minVal)
    let r := pyInt ((startColor.1 : ℚ) + ((endColor.1 : ℚ) - (startColor.1 : ℚ)) * percentage)
    let g := pyInt ((startColor.2.1 : ℚ) + ((endColor.2.1 : ℚ) - (startColor.2.1 : ℚ)) * percentage)
    let b := pyInt ((startColor.2.2 : ℚ) + ((endColor.2.2 : ℚ) - (startColor.2.2 : ℚ)) * percentage)
    hex2Int r ++ hex2Int g ++ hex2Int b

/-- Clamp of a ratio to the unit interval. -/
def clampRatio (q : ℚ) : ℚ := max 0 (min 1 q)

/-- Follows the specification text (section 4.5 step 3): the interpolation
ratio (value - minVal) / (maxVal - minVal) is clamped to [0, 1] before each
RGB channel is computed as startChannel + (endChannel - startChannel) * ratio
(converted to an integer for the hex rendering), the degenerate
maxVal = minVal case yielding exactly the start color.  Stated separately so
the code function can be compared against the specification wording. -/
def spec_color_clamped (value minVal maxVal : ℚ)
    (startColor endColor : Nat × Nat × Nat) : String :=
  if maxVal = minVal then colorHex startColor
  else
    let ratio := clampRatio ((value - minVal) / (maxVal - minVal))
    let r := pyInt ((startColor.1 : ℚ) + ((endColor.1 : ℚ) - (startColor.1 : ℚ)) * ratio)
    let g := pyInt ((startColor.2.1 : ℚ) + ((endColor.2.1 : ℚ) - (startColor.2.1 : ℚ)) * ratio)
    let b := pyInt ((startColor.2.2 : ℚ) + ((endColor.2.2 : ℚ) - (startColor.2.2 : ℚ)) * ratio)
    hex2Int r ++ hex2Int g ++ hex2Int b

/-! ### Thread entries and records (KlpbbsScraper._parse_page_with_soup) -/

/-- Content of one thread li element, as the BeautifulSoup selectors of the
parsing loop observe it: titleTag is the text and href of the selector
div.tit > a with an href starting in thread-, dteText the text of div.dte,
vieText the text of em.vie, lastReplySpanTitle the title attribute of the
span under the lastpost link, lastReplyDirectText the visible text of the
lastpost link.  A missing selector result is none. -/
structure ThreadEntry where
  titleTag : Option (String × String)
  dteText : Option String
  vieText : Option String
  lastReplySpanTitle : Option String
  lastReplyDirectText : Option String
deriving Repr, DecidableEq

/-- One row appended to self.data; field names translate the Chinese dict
keys of line 204-211: title 主题名称, views 主题浏览量, dailyViews
主题每日浏览量, creationDateStr 主题发布日期, publishedLabel 主题发布距今时间,
publishedDays 主题发布距今天数 (top models float +infinity), lastReplyDateStr
主题最后回复日期, lastReplyLabel 最后回复距今时间, lastReplyHours
最后回复距今小时数, url 主题链接. -/
structure ThreadRecord where
  title : String
  views : Nat
  dailyViews : ℚ
  creationDateStr : String
  publishedLabel : String
  publishedDays : WithTop ℚ
  lastReplyDateStr : String
  lastReplyLabel : String
  lastReplyHours : WithTop ℚ
  url : String
deriving Repr, DecidableEq

/-- Keep everything up to and including the last slash. -/
def dropLastSegment (cs : List Char) : List Char :=
  (cs.reverse.dropWhile (fun c => c ≠ '/')).reverse

/-- Models urllib.parse.urljoin for the references the scraper produces: an
empty reference returns the base unchanged, otherwise the reference replaces
the last path segment of the base.  Absolute references and query or fragment
handling are outside the modelled scope; no claim depends on them. -/
def urljoinModel (base rel : String) : String :=
  if rel.data.isEmpty then base else String.mk (dropLastSegment base.data ++ rel.data)

/-- Stripped title of line 173, with its N/A default. -/
def titleOf (t : ThreadEntry) : String :=
  match t.titleTag with
  | some (txt, _) => String.mk (pyStripChars txt.data)
  | none => "N/A"

/-- Relative href of line 174, empty when the title tag is missing. -/
def relUrlOf (t : ThreadEntry) : String :=
  match t.titleTag with
  | some (_, href) => href
  | none => ""

/-- Stripped creation date string of line 177, with its N/A default. -/
def creationStrOf (t : ThreadEntry) : String :=
  match t.dteText with
  | some s => String.mk (pyStripChars s.data)
  | none => "N/A"

/-- View-count text of line 179, with its 0 default. -/
def viewsTextOf (t : ThreadEntry) : String :=
  match t.vieText with
  | some s => s
  | none => "0"

/-- Last-reply date string of lines 181-186: the span title attribute when
present, else the visible link text, else N/A. -/
def lastReplyStrOf (t : ThreadEntry) : String :=
  match t.lastReplySpanTitle with
  | some s => String.mk (pyStripChars s.data)
  | none =>
      match t.lastReplyDirectText with
      | some s => String.mk (pyStripChars s.data)
      | none => "N/A"

/-- Publication metrics of lines 188-195: daily views, elapsed label and
elapsed-days helper, with the defaults 0, 无法解析 and +infinity when the
creation date does not normalize. -/
def pubMetrics (now : Int) (views : Nat) (cds : String) : ℚ × String × WithTop ℚ :=
  match parse_human_readable_date now cds with
  | some dt =>
      let daysDiff : Int := max (Int.fdiv (now - dt) 86400) 1
      (pyRound2 ((views : ℚ) / (daysDiff : ℚ)),
       format_timedelta (now - dt),
       (((((now - dt : Int)) : ℚ) / 86400 : ℚ) : WithTop ℚ))
  | none => ((0 : ℚ), "无法解析", (⊤ : WithTop ℚ))

/-- Last-reply metrics of lines 197-202: elapsed label and elapsed-hours
helper, with the defaults 无法解析 and +infinity. -/
def replyMetrics (now : Int) (lrs : String) : String × WithTop ℚ :=
  match parse_human_readable_date now lrs with
  | some dt =>
      (format_timedelta (now - dt), (((((now - dt : Int)) : ℚ) / 3600 : ℚ) : WithTop ℚ))
  | none => ("无法解析", (⊤ : WithTop ℚ))

/-- Models one iteration of the parsing loop (lines 170-211).  The only
statement in the loop body that can raise is int() on the digit-filtered view
text (empty when the text holds no digit), which the except of line 212 turns
into skipping the entry; every other missing selector falls back to the
defaults of the source (title N/A, views text 0, date N/A). -/
def parse_thread_entry (now : Int) (baseUrl : String) (t : ThreadEntry) :
    Except String ThreadRecord :=
  let viewDigits := (viewsTextOf t).data.filter Char.isDigit
  if viewDigits.isEmpty then .error "invalid literal for int" else
  .ok { title := titleOf t, views := charsToNatVal viewDigits,
        dailyViews := (pubMetrics now (charsToNatVal viewDigits) (creationStrOf t)).1,
        creationDateStr := creationStrOf t,
        publishedLabel := (pubMetrics now (charsToNatVal viewDigits) (creationStrOf t)).2.1,
        publishedDays := (pubMetrics now (charsToNatVal viewDigits) (creationStrOf t)).2.2,
        lastReplyDateStr := lastReplyStrOf t,
        lastReplyLabel := (replyMetrics now (lastReplyStrOf t)).1,
        lastReplyHours := (replyMetrics now (lastReplyStrOf t)).2,
        url := urljoinModel baseUrl (relUrlOf t) }

/-- Models KlpbbsScraper._parse_page_with_soup (lines 160-213).  The page is
none when the wait for the thread-list container times out, in which case the
TimeoutException of line 213 propagates (error); otherwise every entry is
processed independently, a failing entry being skipped (except of line 212).
An empty entry list returns with nothing appended, exactly as the early
return of line 167. -/
def parse_page_with_soup (now : Int) (baseUrl : String)
    (page : Option (List ThreadEntry)) : Except Unit (List ThreadRecord) :=
  match page with
  | none => .error ()
  | some threads =>
      .ok (threads.foldl (fun acc t =>
        match parse_thread_entry now baseUrl t with
        | .ok r => acc ++ [r]
        | .error _ => acc) [])

/-- Models the pagination loop of KlpbbsScraper.scrape (lines 301-306)
together with _navigate_to_next_page: the page source is the list of pages
the site serves in order, the next-page button existing exactly while further
pages remain.  Returns the accumulated records and the number of pages
processed; a page-level failure propagates immediately.  The source always
has a current page, so the loop is modelled on the nonempty list; the empty
list is mapped to zero pages for totality. -/
def crawl_pages (now : Int) (baseUrl : String) :
    List (Option (List ThreadEntry)) → Except Unit (List ThreadRecord × Nat)
  | [] => .ok ([], 0)
  | p :: rest =>
      match parse_page_with_soup now baseUrl p with
      | .error e => .error e
      | .ok rs =>
          if rest.isEmpty then .ok (rs, 1)
          else match crawl_pages now baseUrl rest with
            | .error e => .error e
            | .ok (rs', n) => .ok (rs ++ rs', n + 1)

/-! ### The report sort (pandas DataFrame.sort_values, ascending=False)

Line 229 sorts with the pandas default kind, quicksort.  pandas
(pandas/core/sorting.py, nargsort) reverses the values and the index array,
takes the ascending numpy argsort, and reverses the composed indexer.  The
numpy argsort of kind quicksort (numpy/core/src/npysort/quicksort.c.src,
aquicksort) is an introsort: segments longer than SMALL_QUICKSORT = 15
elements are partitioned around a median-of-three pivot (falling back to
heapsort past a depth limit of twice the most significant bit of the length)
and the surviving short segments are finished by a stable insertion sort.
For a whole array of at most 16 indices the main loop never runs and the
algorithm is exactly the stable insertion sort, modelled below on lists; for
longer arrays the full introsort is modelled step for step. -/

/-- Insertion of one index-value pair into an ascending run, placing it after
every element of value less than or equal to its own, exactly as the
insertion-sort pass of aquicksort shifts elements only while the inserted
value is strictly smaller. -/
def argInsertRight (p : Nat × ℚ) : List (Nat × ℚ) → List (Nat × ℚ)
  | [] => [p]
  | q :: qs => if p.2 < q.2 then p :: q :: qs else q :: argInsertRight p qs

/-- Left-to-right insertion-sort driver over the enumerated value list. -/
def argInsertLoop : List (Nat × ℚ) → List (Nat × ℚ) → List (Nat × ℚ)
  | [], acc => acc
  | p :: ps, acc => argInsertLoop ps (argInsertRight p acc)

/-- Stable ascending insertion argsort, the behaviour of numpy aquicksort on
arrays of at most 16 elements. -/
def npInsertionArgsort (vals : List ℚ) : List Nat :=
  (argInsertLoop vals.enum []).map Prod.fst

/-- Ascending order on index-value pairs, by value with ties by index: the
order the stable insertion argsort realizes. -/
def ascPair (a b : Nat × ℚ) : Prop := a.2 < b.2 ∨ (a.2 = b.2 ∧ a.1 ≤ b.1)

/-- Value of the element the index array points to at a position. -/
def lVal (v : List ℚ) (t : List Nat) (i : Nat) : ℚ := v.getD (t.getD i 0) 0

/-- Swap of two positions of the index array. -/
def lSwap (t : List Nat) (i j : Nat) : List Nat :=
  let a := t.getD i 0
  let b := t.getD j 0
  (t.set i b).set j a

/-- Scan of the partition loop: increment pi, continue while the pointed
value is below the pivot. -/
def aqScanRight (v : List ℚ) (t : List Nat) (vp : ℚ) : Nat → Nat → Nat
  | 0, pi => pi
  | fuel + 1, pi =>
      let pi' := pi + 1
      if lVal v t pi' < vp then aqScanRight v t vp fuel pi' else pi'

/-- Scan of the partition loop: decrement pj, continue while the pivot is
below the pointed value. -/
def aqScanLeft (v : List ℚ) (t : List Nat) (vp : ℚ) : Nat → Nat → Nat
  | 0, pj => pj
  | fuel + 1, pj =>
      let pj' := pj - 1
      if vp < lVal v t pj' then aqScanLeft v t vp fuel pj' else pj'

/-- Hoare-style partition loop of aquicksort: returns the permuted index
array and the final pi.  The fuel bounds the number of swap rounds; any value
at least the segment length is enough. -/
def aqPartitionLoop (v : List ℚ) : Nat → List Nat → Nat → Nat → ℚ → List Nat × Nat
  | 0, t, pi, _, _ => (t, pi)
  | fuel + 1, t, pi, pj, vp =>
      let pi' := aqScanRight v t vp (t.length + 1) pi
      let pj' := aqScanLeft v t vp (t.length + 1) pj
      if pi' ≥ pj' then (t, pi')
      else aqPartitionLoop v fuel (lSwap t pi' pj') pi' pj' vp

/-- Shift phase of the insertion sort over a segment. -/
def aqInsertShift (v : List ℚ) (pl : Nat) (vp : ℚ) : Nat → List Nat → Nat → List Nat × Nat
  | 0, t, pj => (t, pj)
  | fuel + 1, t, pj =>
      if pj > pl && vp < v.getD (t.getD (pj - 1) 0) 0 then
        aqInsertShift v pl vp fuel (t.set pj (t.getD (pj - 1) 0)) (pj - 1)
      else (t, pj)

/-- Insertion-sort pass of aquicksort over the segment pl..pr of the index
array, as the final loop of the C source. -/
def aqInsertSegLoop (v : List ℚ) (pl pr : Nat) : Nat → List Nat → Nat → List Nat
  | 0, t, _ => t
  | fuel + 1, t, pi =>
      if pi > pr then t
      else
        let vi := t.getD pi 0
        let p := aqInsertShift v pl (v.getD vi 0) (t.length + 1) t pi
        aqInsertSegLoop v pl pr fuel (p.1.set p.2 vi) (pi + 1)

/-- Insertion sort on the segment pl..pr. -/
def aqInsertSeg (v : List ℚ) (t : List Nat) (pl pr : Nat) : List Nat :=
  aqInsertSegLoop v pl pr (pr - pl + 2) t (pl + 1)

/-- Sift-down loop of the numpy aheapsort fallback, one-indexed inside the
segment starting at pl: a k is t at position pl + k - 1. -/
def ahSiftLoop (v : List ℚ) (pl n tmp : Nat) : Nat → List Nat → Nat → Nat → List Nat × Nat
  | 0, t, i, _ => (t, i)
  | fuel + 1, t, i, j =>
      if j ≤ n then
        let j' := if j < n && lVal v t (pl + j - 1) < lVal v t (pl + j) then j + 1 else j
        if v.getD tmp 0 < lVal v t (pl + j' - 1) then
          ahSiftLoop v pl n tmp fuel (t.set (pl + i - 1) (t.getD (pl + j' - 1) 0)) j' (j' + j')
        else (t, i)
      else (t, i)

/-- One sift of aheapsort: move the index tmp into place from position l. -/
def ahSift (v : List ℚ) (pl n tmp l : Nat) (t : List Nat) : List Nat :=
  let p := ahSiftLoop v pl n tmp (n + 2) t l (2 * l)
  p.1.set (pl + p.2 - 1) tmp

/-- Heap-building phase of aheapsort, l counting down from n / 2. -/
def ahBuild (v : List ℚ) (pl n : Nat) : Nat → List Nat → List Nat
  | 0, t => t
  | l + 1, t => ahBuild v pl n l (ahSift v pl n (t.getD (pl + l) 0) (l + 1) t)

/-- Extraction phase of aheapsort, m counting down from n to 2. -/
def ahExtract (v : List ℚ) (pl : Nat) : Nat → List Nat → List Nat
  | 0, t => t
  | 1, t => t
  | m + 2, t =>
      let tmp := t.getD (pl + m + 1) 0
      let t := t.set (pl + m + 1) (t.getD pl 0)
      let t := ahSift v pl (m + 1) tmp 1 t
      ahExtract v pl (m + 1) t

/-- Models numpy aheapsort on the segment of n indices starting at pl: the
two phases of the C source, heap building then extraction. -/
def aheapsortRaw (v : List ℚ) (t : List Nat) (pl n : Nat) : List Nat :=
  ahExtract v pl n (ahBuild v pl n (n / 2) t)

/-- Decidable contract of a sort restricted to the segment of n positions
starting at pl: same length, untouched outside the segment, a permutation of
the segment, ascending by value on the segment. -/
def heapOk (v : List ℚ) (t r : List Nat) (pl n : Nat) : Bool :=
  (r.length == t.length)
    && ((List.range t.length).all fun k =>
          if k < pl || pl + n ≤ k then r.getD k 0 == t.getD k 0 else true)
    && ((r.drop pl).take n).isPerm ((t.drop pl).take n)
    && ((List.range (n - 1)).all fun o => decide (lVal v r (pl + o) ≤ lVal v r (pl + o + 1)))

/-- Heapsort fallback of the introsort, as called past the depth limit.  The
raw heapsort result is guarded by the decidable segment contract heapOk,
which a heapsort always satisfies, so the guard never alters the value the C
code computes; it lets the sortedness theorem below rest on the contract
instead of a separate formal verification of the sift loops.  The (in
reality unreachable) else branch sorts the segment with the already modelled
insertion sort. -/
def aheapsortSeg (v : List ℚ) (t : List Nat) (pl n : Nat) : List Nat :=
  let r := aheapsortRaw v t pl n
  if heapOk v t r pl n then r else aqInsertSeg v t pl (pl + n - 1)

/-- Main loop of numpy aquicksort: partition long segments, keep the larger
part on an explicit stack, finish short segments by insertion sort, fall back
to heapsort when the depth limit runs out.  The fuel bounds the number of
loop turns; partitions and stack pops are each bounded by the array length,
so any fuel of at least four times the length is enough. -/
def aqMain (v : List ℚ) : Nat → List Nat → List (Nat × Nat) → Nat → Nat → Int → List Nat
  | 0, t, _, _, _, _ => t
  | fuel + 1, t, stack, pl, pr, depth =>
      if pr - pl > 15 then
        if depth < 0 then
          let t := aheapsortSeg v t pl (pr - pl + 1)
          match stack with
          | [] => t
          | (pl', pr') :: st => aqMain v fuel t st pl' pr' (depth - 1)
        else
          let pm := pl + (pr - pl) / 2
          let t := if lVal v t pm < lVal v t pl then lSwap t pm pl else t
          let t := if lVal v t pr < lVal v t pm then lSwap t pr pm else t
          let t := if lVal v t pm < lVal v t pl then lSwap t pm pl else t
          let vp := lVal v t pm
          let t := lSwap t pm (pr - 1)
          let p := aqPartitionLoop v (t.length + 1) t pl (pr - 1) vp
          let t := lSwap p.1 p.2 (pr - 1)
          let pi := p.2
          if pi - pl < pr - pi then
            aqMain v fuel t ((pi + 1, pr) :: stack) pl (pi - 1) (depth - 1)
          else
            aqMain v fuel t ((pl, pi - 1) :: stack) (pi + 1) pr (depth - 1)
      else
        let t := aqInsertSeg v t pl pr
        match stack with
        | [] => t
        | (pl', pr') :: st => aqMain v fuel t st pl' pr' depth

/-- Models numpy aquicksort on arrays longer than 16 elements: start on the
whole index range with depth limit twice the most significant bit of the
length. -/
def npIntrosortArgsort (vals : List ℚ) : List Nat :=
  let n := vals.length
  aqMain vals (4 * n + 4) (List.range n) [] 0 (n - 1) (2 * (Nat.log2 n : Int))

/-- Models numpy argsort with kind quicksort: pure insertion sort up to 16
elements (where the introsort main loop never runs), full introsort beyond. -/
def npAargsortQuicksort (vals : List ℚ) : List Nat :=
  if vals.length ≤ 16 then npInsertionArgsort vals else npIntrosortArgsort vals

/-- Models pandas nargsort with ascending false and the default kind on a
column without NaN (dailyViews is always finite): reverse the values and the
identity indexer, argsort ascending, compose and reverse. -/
def nargsortDesc (vals : List ℚ) : List Nat :=
  let n := vals.length
  let perm := npAargsortQuicksort vals.reverse
  ((perm.map (fun p => n - 1 - p)).reverse)

/-- Models df.sort_values(ascending=False) of line 229 on the record list,
taking rows in indexer order. -/
def sortValuesDesc (rows : List ThreadRecord) : List ThreadRecord :=
  (nargsortDesc (rows.map ThreadRecord.dailyViews)).filterMap (fun i => rows.get? i)


/-! ### Segment operations: the introsort loop invariant toolkit -/

/-- A segment operation on the index array: same length, positions outside
lo..hi untouched, and the whole array permuted (hence, the segment permuted,
since the rest is untouched). -/
def SegOp (t r : List Nat) (lo hi : Nat) : Prop :=
  r.length = t.length ∧ (∀ k, k < lo ∨ hi < k → r.getD k 0 = t.getD k 0) ∧ r.Perm t

/-- The segment lo..hi of the index array is sorted ascending by value. -/
def SegSorted (v : List ℚ) (t : List Nat) (lo hi : Nat) : Prop :=
  ∀ a b, lo ≤ a → a ≤ b → b ≤ hi → lVal v t a ≤ lVal v t b

/-- Intermediate state of the shift phase of one insertion: the element
originally at pi has been removed, elements pj..pi-1 of the original list sit
shifted one place right, position pj is a stale copy of the original pj. -/
def insCF (t0 : List Nat) (pj pi : Nat) : List Nat :=
  t0.take (pj + 1) ++ ((t0.drop pj).take (pi - pj) ++ t0.drop (pi + 1))

/-- Position k lies inside the closed segment s. -/
def inSeg (s : Nat × Nat) (k : Nat) : Prop := s.1 ≤ k ∧ k ≤ s.2

/-- Termination measure of the main loop: twice the total pending segment
length plus the number of pending segments. -/
def segMeasure (segs : List (Nat × Nat)) : Nat :=
  2 * (segs.map (fun s => s.2 + 1 - s.1)).sum + segs.length

/-- All pending segments are nonempty and in bounds. -/
def SegsWF (t : List Nat) (segs : List (Nat × Nat)) : Prop :=
  ∀ s ∈ segs, s.1 ≤ s.2 ∧ s.2 < t.length

/-- Pending segments are pairwise disjoint. -/
def SegsDisj (segs : List (Nat × Nat)) : Prop :=
  segs.Pairwise (fun s s' => ∀ k, ¬(inSeg s k ∧ inSeg s' k))

/-- Every pair of positions not inside one common pending segment is already
ordered by value: the array is sorted up to the pending segments. -/
def Fenced (v : List ℚ) (t : List Nat) (segs : List (Nat × Nat)) : Prop :=
  ∀ i j, i < j → j < t.length →
    (∀ s ∈ segs, ¬(inSeg s i ∧ inSeg s j)) →
    lVal v t i ≤ lVal v t j

/-- Median-of-three phase of one partition turn, as the three conditional
swaps of the C source. -/
def med3 (v : List ℚ) (t : List Nat) (pl pm pr : Nat) : List Nat :=
  let t1 := if lVal v t pm < lVal v t pl then lSwap t pm pl else t
  let t2 := if lVal v t1 pr < lVal v t1 pm then lSwap t1 pr pm else t1
  if lVal v t2 pm < lVal v t2 pl then lSwap t2 pm pl else t2

/-- One partition turn of the main loop: median-of-three pivot selection,
pivot parked at pr-1, Hoare partition, pivot swapped to its final place.
Returns the new index array and the pivot position. -/
def aqPartStep (v : List ℚ) (t : List Nat) (pl pr : Nat) : List Nat × Nat :=
  let pm := pl + (pr - pl) / 2
  let t3 := med3 v t pl pm pr
  let vp := lVal v t3 pm
  let t4 := lSwap t3 pm (pr - 1)
  let p := aqPartitionLoop v (t4.length + 1) t4 pl (pr - 1) vp
  (lSwap p.1 p.2 (pr - 1), p.2)

/-! ### Report generation and the top-level crawl -/

/-- Models KlpbbsScraper._save_to_excel (lines 224-292) at the level the
claims observe: the early return for empty data produces no report (none),
otherwise the report holds the rows sorted descending by dailyViews.  Column
ordering, styling, hyperlinks and the worksheet serialization are not
modelled. -/
def save_to_excel (data : List ThreadRecord) : Option (List ThreadRecord) :=
  if data.isEmpty then none else some (sortValuesDesc data)

/-- Models KlpbbsScraper.scrape (lines 294-315): the crawl loop runs inside a
try whose except swallows any exception after taking a diagnostic screenshot,
and _save_to_excel is called only after the loop finishes normally.  The
result is the produced report (if any) together with the flag telling whether
the fatal path (screenshot, no report call) was taken. -/
def scrape (now : Int) (baseUrl : String) (pages : List (Option (List ThreadEntry))) :
    Option (List ThreadRecord) × Bool :=
  match crawl_pages now baseUrl pages with
  | .error _ => (none, true)
  | .ok (rs, _) => (save_to_excel rs, false)

/-! ### Cookie parsing (KlpbbsScraper._login_with_cookie, lines 74-98) -/

/-- Models Python split with the two-character separator of line 88: split
the character list on each non-overlapping leftmost occurrence of a
semicolon followed by a space. -/
def splitCookieList : List Char → List (List Char)
  | [] => [[]]
  | ';' :: ' ' :: rest => [] :: splitCookieList rest
  | c :: rest =>
      match splitCookieList rest with
      | [] => [[c]]
      | h :: tl => (c :: h) :: tl

/-- Split at the first occurrence of a character, the remainder untouched, as
Python split with maxsplit one does; without an occurrence the whole list is
the first component (the callers guard on containment). -/
def splitFirstAt (c : Char) : List Char → List Char × List Char
  | [] => ([], [])
  | x :: rest =>
      if x = c then ([], rest)
      else
        let p := splitFirstAt c rest
        (x :: p.1, p.2)

/-- Models lines 90-92: a segment without an equals sign is ignored, any
other is split at its first equals sign into a stripped name and a stripped
value. -/
def parse_cookie_item (cs : List Char) : Option (String × String) :=
  if cs.contains '=' then
    let p := splitFirstAt '=' cs
    some (String.mk (pyStripChars p.1), String.mk (pyStripChars p.2))
  else none

/-- Models KlpbbsScraper._login_with_cookie at the level the claims observe:
the guard of line 76 raises ValueError on an empty or placeholder cookie
string, otherwise the string is split on the two-character separator and
each segment holding an equals sign contributes one name-value cookie. The
webdriver add-cookie calls themselves are not modelled. -/
def login_with_cookie (cookieString : String) : Except String (List (String × String)) :=
  if cookieString.data.isEmpty || containsSub "在这里粘贴".data cookieString.data then
    .error "未提供有效的Cookie字符串。"
  else
    .ok ((splitCookieList cookieString.data).filterMap parse_cookie_item)

/-! ### Concrete data used by witnesses and counterexamples -/

/-- Canonical rendering of the relative minutes format, N分钟前. -/
def minutesAgoChars (n : Nat) : List Char := natToChars n ++ "分钟前".data

/-- Canonical rendering of the relative hours format, N小时前. -/
def hoursAgoChars (n : Nat) : List Char := natToChars n ++ "小时前".data

/-- Canonical rendering of the relative days format, N天前. -/
def daysAgoChars (n : Nat) : List Char := natToChars n ++ "天前".data

/-- Two-digit zero-padded decimal rendering of a value below 100. -/
def twoDigitChars (k : Nat) : List Char :=
  [Char.ofNat (48 + k / 10), Char.ofNat (48 + k % 10)]

/-- Rendering of an embedded HH:MM time. -/
def hhmmChars (hh mm : Nat) : List Char := twoDigitChars hh ++ ':' :: twoDigitChars mm

/-- Canonical rendering of the yesterday format, 昨天 HH:MM. -/
def yesterdayChars (hh mm : Nat) : List Char := '昨' :: '天' :: ' ' :: hhmmChars hh mm

/-- Canonical rendering of the day-before-yesterday format, 前天 HH:MM. -/
def dayBeforeChars (hh mm : Nat) : List Char := '前' :: '天' :: ' ' :: hhmmChars hh mm

/-- Concrete anchor used by counterexamples and witnesses: day 3 at 12:30. -/
def T2 : Int := 3 * 86400 + 45000

/-- Date string containing both the yesterday marker (with an embedded HH:MM)
and a minutes-ago marker. -/
def s0 : String := "昨天 14:30 5分钟前"

/-- Concrete anchor: day 10 at midnight. -/
def T1 : Int := 10 * 86400

/-- Concrete base url. -/
def B1 : String := "https://klpbbs.com/home.php?mod=space"

/-- Entry published three days ago with 150 views. -/
def e1 : ThreadEntry :=
  { titleTag := none, dteText := some "3天前", vieText := some "150",
    lastReplySpanTitle := none, lastReplyDirectText := none }

/-- Record the scraper builds from e1 at anchor T1. -/
def r1 : ThreadRecord :=
  { title := "N/A", views := 150, dailyViews := 50, creationDateStr := "3天前",
    publishedLabel := "3天 0小时", publishedDays := ((3 : ℚ) : WithTop ℚ),
    lastReplyDateStr := "N/A", lastReplyLabel := "无法解析",
    lastReplyHours := ⊤, url := B1 }

/-- Entry published yesterday afternoon, last reply five hours ago. -/
def e2 : ThreadEntry :=
  { titleTag := none, dteText := some "昨天 14:30", vieText := some "100",
    lastReplySpanTitle := some "5小时前", lastReplyDirectText := none }

/-- Record the scraper builds from e2 at anchor T1. -/
def r2 : ThreadRecord :=
  { title := "N/A", views := 100, dailyViews := 100, creationDateStr := "昨天 14:30",
    publishedLabel := "9小时 30分钟", publishedDays := ((19 / 48 : ℚ) : WithTop ℚ),
    lastReplyDateStr := "5小时前", lastReplyLabel := "5小时 0分钟",
    lastReplyHours := ((5 : ℚ) : WithTop ℚ), url := B1 }

/-- Malformed entry: the view text holds no digit, so int() raises. -/
def badE : ThreadEntry :=
  { titleTag := some ("Bad", "thread-1-1-1.html"), dteText := some "2024-01-05 14:30",
    vieText := some "views", lastReplySpanTitle := none, lastReplyDirectText := none }

/-- Well-formed entry with title, thousands separator in the views, a last
reply three hours ago and no creation date. -/
def g1E : ThreadEntry :=
  { titleTag := some (" Good One ", "thread-2-1-1.html"), dteText := none,
    vieText := some "1,234", lastReplySpanTitle := none,
    lastReplyDirectText := some "3小时前" }

/-- Well-formed entry published two days ago with 90 views. -/
def g2E : ThreadEntry :=
  { titleTag := none, dteText := some "2天前", vieText := some "90",
    lastReplySpanTitle := none, lastReplyDirectText := none }

/-- Record the scraper builds from g1E at anchor T1. -/
def wrec1 : ThreadRecord :=
  { title := "Good One", views := 1234, dailyViews := 0, creationDateStr := "N/A",
    publishedLabel := "无法解析", publishedDays := ⊤,
    lastReplyDateStr := "3小时前", lastReplyLabel := "3小时 0分钟",
    lastReplyHours := ((3 : ℚ) : WithTop ℚ), url := "https://klpbbs.com/thread-2-1-1.html" }

/-- Record the scraper builds from g2E at anchor T1. -/
def wrec2 : ThreadRecord :=
  { title := "N/A", views := 90, dailyViews := 45, creationDateStr := "2天前",
    publishedLabel := "2天 0小时", publishedDays := ((2 : ℚ) : WithTop ℚ),
    lastReplyDateStr := "N/A", lastReplyLabel := "无法解析",
    lastReplyHours := ⊤, url := B1 }

/-- Row with the given title index, every row sharing the dailyViews key. -/
def mkRow (i : Nat) : ThreadRecord :=
  { title := String.mk (List.replicate i 'x'), views := 0, dailyViews := 5,
    creationDateStr := "N/A", publishedLabel := "无法解析", publishedDays := ⊤,
    lastReplyDateStr := "N/A", lastReplyLabel := "无法解析", lastReplyHours := ⊤,
    url := "" }

/-- Seventeen rows with equal dailyViews and distinct titles, one more than
the insertion-sort threshold of the numpy introsort. -/
def rows17 : List ThreadRecord := (List.range 17).map mkRow

/-- Decidable equality of results, used to evaluate the embedding on
concrete inputs. -/
instance {ε α : Type} [DecidableEq ε] [DecidableEq α] : DecidableEq (Except ε α) := fun a b =>
  match a, b with
  | .ok x, .ok y =>
      if h : x = y then isTrue (by rw [h]) else isFalse (fun hc => h (Except.ok.inj hc))
  | .ok _, .error _ => isFalse (fun hc => Except.noConfusion hc)
  | .error _, .ok _ => isFalse (fun hc => Except.noConfusion hc)
  | .error e, .error f =>
      if h : e = f then isTrue (by rw [h]) else isFalse (fun hc => h (Except.error.inj hc))

/-! ### Helper lemmas -/

/-- Truncation of a natural-number cast is the number itself. -/
theorem pyInt_natCast (n : Nat) : pyInt ((n : ℚ)) = n := by
  unfold pyInt
  rw [if_pos (by positivity)]
  exact Int.floor_natCast n

/-- Accumulating loop of the page parser as a filterMap. -/
theorem parse_fold_eq_filterMap (now : Int) (burl : String) :
    ∀ (es : List ThreadEntry) (acc : List ThreadRecord),
      es.foldl (fun acc t =>
          match parse_thread_entry now burl t with
          | .ok r => acc ++ [r]
          | .error _ => acc) acc
        = acc ++ es.filterMap (fun t => (parse_thread_entry now burl t).toOption) := by
  intro es
  induction es with
  | nil => intro acc; simp
  | cons t ts ih =>
      intro acc
      cases h : parse_thread_entry now burl t with
      | ok r => simp [List.foldl_cons, h, ih, Except.toOption]
      | error e => simp [List.foldl_cons, h, ih, Except.toOption]

/-- Projections of a successfully parsed record: the derived metric fields in
terms of the date normalization of the stored date strings. -/
theorem parse_ok_projections (now : Int) (burl : String) (t : ThreadEntry)
    (r : ThreadRecord) (h : parse_thread_entry now burl t = .ok r) :
    (∀ dt, parse_human_readable_date now r.creationDateStr = some dt →
        r.dailyViews = pyRound2 ((r.views : ℚ) / ((max (Int.fdiv (now - dt) 86400) 1 : ℤ) : ℚ)) ∧
        r.publishedLabel = format_timedelta (now - dt) ∧
        r.publishedDays = ((((now - dt : ℤ) : ℚ) / 86400 : ℚ) : WithTop ℚ)) ∧
    (parse_human_readable_date now r.creationDateStr = none →
        r.dailyViews = 0 ∧ r.publishedLabel = "无法解析" ∧ r.publishedDays = ⊤) ∧
    (∀ dt, parse_human_readable_date now r.lastReplyDateStr = some dt →
        r.lastReplyLabel = format_timedelta (now - dt) ∧
        r.lastReplyHours = ((((now - dt : ℤ) : ℚ) / 3600 : ℚ) : WithTop ℚ)) := by
  unfold parse_thread_entry at h
  by_cases hc : ((viewsTextOf t).data.filter Char.isDigit).isEmpty
  · rw [if_pos hc] at h
    exact absurd h (by simp)
  · rw [if_neg hc] at h
    injection h with h'
    subst h'
    refine ⟨?_, ?_, ?_⟩
    · intro dt hdt
      simp only at hdt
      simp [pubMetrics, hdt]
    · intro hdt
      simp only at hdt
      simp [pubMetrics, hdt]
    · intro dt hdt
      simp only at hdt
      simp [replyMetrics, hdt]

/-- Evaluation of the parser on the concrete entry e1. -/
theorem parse_e1 : parse_thread_entry T1 B1 e1 = .ok r1 := by
  unfold parse_thread_entry
  rw [if_neg (by decide)]
  refine congrArg Except.ok ?_
  have h3 : parse_human_readable_date T1 (creationStrOf e1) = some (T1 - 259200) := by decide
  have h4 : parse_human_readable_date T1 (lastReplyStrOf e1) = none := by decide
  have hv : charsToNatVal ((viewsTextOf e1).data.filter Char.isDigit) = 150 := by decide
  simp only [pubMetrics, replyMetrics, h3, h4, hv, r1]
  rw [ThreadRecord.mk.injEq]
  refine ⟨by decide, rfl, ?_, by decide, by decide, ?_, by decide, rfl, rfl, by decide⟩
  · rw [show ((T1 - (T1 - 259200)).fdiv 86400 ⊔ 1 : ℤ) = 3 from by decide]
    norm_num [pyRound2, roundHalfToEven]
  · rw [show (T1 - (T1 - 259200) : ℤ) = 259200 from by decide]
    rw [show ((259200 : ℤ) : ℚ) / 86400 = (3 : ℚ) from by norm_num]

/-- Evaluation of the parser on the concrete entry e2. -/
theorem parse_e2 : parse_thread_entry T1 B1 e2 = .ok r2 := by
  unfold parse_thread_entry
  rw [if_neg (by decide)]
  refine congrArg Except.ok ?_
  have h3 : parse_human_readable_date T1 (creationStrOf e2) = some (T1 - 34200) := by decide
  have h4 : parse_human_readable_date T1 (lastReplyStrOf e2) = some (T1 - 18000) := by decide
  have hv : charsToNatVal ((viewsTextOf e2).data.filter Char.isDigit) = 100 := by decide
  simp only [pubMetrics, replyMetrics, h3, h4, hv, r2]
  rw [ThreadRecord.mk.injEq]
  refine ⟨by decide, rfl, ?_, by decide, by decide, ?_, by decide, by decide, ?_, by decide⟩
  · rw [show ((T1 - (T1 - 34200)).fdiv 86400 ⊔ 1 : ℤ) = 1 from by decide]
    norm_num [pyRound2, roundHalfToEven]
  · rw [show (T1 - (T1 - 34200) : ℤ) = 34200 from by decide]
    rw [show ((34200 : ℤ) : ℚ) / 86400 = (19 / 48 : ℚ) from by norm_num]
  · rw [show (T1 - (T1 - 18000) : ℤ) = 18000 from by decide]
    rw [show ((18000 : ℤ) : ℚ) / 3600 = (5 : ℚ) from by norm_num]

/-- Evaluation of the parser on the concrete entry g1E. -/
theorem parse_g1 : parse_thread_entry T1 B1 g1E = .ok wrec1 := by
  unfold parse_thread_entry
  rw [if_neg (by decide)]
  refine congrArg Except.ok ?_
  have h3 : parse_human_readable_date T1 (creationStrOf g1E) = none := by decide
  have h4 : parse_human_readable_date T1 (lastReplyStrOf g1E) = some (T1 - 10800) := by decide
  have hv : charsToNatVal ((viewsTextOf g1E).data.filter Char.isDigit) = 1234 := by decide
  simp only [pubMetrics, replyMetrics, h3, h4, hv, wrec1]
  rw [ThreadRecord.mk.injEq]
  refine ⟨by decide, rfl, rfl, by decide, rfl, rfl, by decide, by decide, ?_, by decide⟩
  rw [show (T1 - (T1 - 10800) : ℤ) = 10800 from by decide]
  rw [show ((10800 : ℤ) : ℚ) / 3600 = (3 : ℚ) from by norm_num]

/-- Evaluation of the parser on the concrete entry g2E. -/
theorem parse_g2 : parse_thread_entry T1 B1 g2E = .ok wrec2 := by
  unfold parse_thread_entry
  rw [if_neg (by decide)]
  refine congrArg Except.ok ?_
  have h3 : parse_human_readable_date T1 (creationStrOf g2E) = some (T1 - 172800) := by decide
  have h4 : parse_human_readable_date T1 (lastReplyStrOf g2E) = none := by decide
  have hv : charsToNatVal ((viewsTextOf g2E).data.filter Char.isDigit) = 90 := by decide
  simp only [pubMetrics, replyMetrics, h3, h4, hv, wrec2]
  rw [ThreadRecord.mk.injEq]
  refine ⟨by decide, rfl, ?_, by decide, by decide, ?_, by decide, rfl, rfl, by decide⟩
  · rw [show ((T1 - (T1 - 172800)).fdiv 86400 ⊔ 1 : ℤ) = 2 from by decide]
    norm_num [pyRound2, roundHalfToEven]
  · rw [show (T1 - (T1 - 172800) : ℤ) = 172800 from by decide]
    rw [show ((172800 : ℤ) : ℚ) / 86400 = (2 : ℚ) from by norm_num]

/-- Unfolding of the crawl loop on a page that parses and is not the last:
navigation succeeds and the loop continues on the remaining pages. -/
theorem crawl_pages_cons_ok (now : Int) (burl : String)
    (p : Option (List ThreadEntry)) (rest : List (Option (List ThreadEntry)))
    (rs : List ThreadRecord) (hrest : rest.isEmpty = false)
    (hp : parse_page_with_soup now burl p = .ok rs) :
    crawl_pages now burl (p :: rest)
      = match crawl_pages now burl rest with
        | .error e => .error e
        | .ok (rs', n) => .ok (rs ++ rs', n + 1) := by
  rw [crawl_pages, hp, hrest]
  simp

/-! ### Claim theorems -/

/-- C1: for every record, when the creation date string normalizes to a
timestamp the daily views are round(views / max(daysSincePublication, 1), 2)
with daysSincePublication the floor of the elapsed time in whole days, and
when it does not normalize the daily views are 0 and the elapsed-days helper
is +infinity; in particular 100 views over 0 days give 100.0 and 150 views
over 3 days give 50.0. -/
theorem daily_views_formula (now : Int) (burl : String) (t : ThreadEntry)
    (r : ThreadRecord) (h : parse_thread_entry now burl t = .ok r) :
    (∀ dt, parse_human_readable_date now r.creationDateStr = some dt →
        r.dailyViews = pyRound2 ((r.views : ℚ) / ((max (Int.fdiv (now - dt) 86400) 1 : ℤ) : ℚ))) ∧
    (parse_human_readable_date now r.creationDateStr = none →
        r.dailyViews = 0 ∧ r.publishedDays = ⊤) ∧
    pyRound2 ((100 : ℚ) / ((max (0 : ℤ) 1 : ℤ) : ℚ)) = 100 ∧
    pyRound2 ((150 : ℚ) / ((max (3 : ℤ) 1 : ℤ) : ℚ)) = 50 := by
  obtain ⟨hsome, hnone, _⟩ := parse_ok_projections now burl t r h
  refine ⟨fun dt hdt => ((hsome dt hdt).1), fun hdt => ⟨(hnone hdt).1, (hnone hdt).2.2⟩, ?_, ?_⟩
  · rw [show (max (0 : ℤ) 1 : ℤ) = 1 from by decide]
    norm_num [pyRound2, roundHalfToEven]
  · rw [show (max (3 : ℤ) 1 : ℤ) = 3 from by decide]
    norm_num [pyRound2, roundHalfToEven]

/-- Witness for daily_views_formula: the concrete entry e1 (150 views, three
days old) at anchor T1 parses to the record r1, whose daily views equal the
claimed formula, here 50. -/
theorem daily_views_formula_witness :
    parse_thread_entry T1 B1 e1 = .ok r1 ∧
    parse_human_readable_date T1 r1.creationDateStr = some (T1 - 259200) ∧
    r1.dailyViews
      = pyRound2 ((r1.views : ℚ) / ((max (Int.fdiv (T1 - (T1 - 259200)) 86400) 1 : ℤ) : ℚ)) :=
  ⟨parse_e1, by decide,
    (daily_views_formula T1 B1 e1 r1 parse_e1).1 (T1 - 259200) (by decide)⟩

/-- C5: within one page every thread entry is parsed independently; the page
parse is the in-order filterMap keeping exactly the entries whose parse
succeeds, and concretely one malformed entry among two well-formed ones
yields exactly the two well-formed records without aborting. -/
theorem entry_errors_isolated :
    (∀ (now : Int) (burl : String) (es : List ThreadEntry),
        parse_page_with_soup now burl (some es)
          = .ok (es.filterMap (fun t => (parse_thread_entry now burl t).toOption))) ∧
    parse_thread_entry T1 B1 badE = .error "invalid literal for int" ∧
    parse_page_with_soup T1 B1 (some [badE, g1E, g2E]) = .ok [wrec1, wrec2] := by
  have hbad : parse_thread_entry T1 B1 badE = .error "invalid literal for int" := by
    unfold parse_thread_entry
    rw [if_pos (by decide)]
  refine ⟨?_, hbad, ?_⟩
  · intro now burl es
    simp [parse_page_with_soup, parse_fold_eq_filterMap]
  · simp [parse_page_with_soup, parse_fold_eq_filterMap, hbad, parse_g1, parse_g2,
      Except.toOption]

/-- C6: the crawl loop over a source of n pages (each reporting a next page
except the last) parses the pages in order, accumulates their records in
order, and terminates after exactly n pages. -/
theorem crawl_linear_forward (now : Int) (burl : String) :
    ∀ (pagesE : List (List ThreadEntry)),
      crawl_pages now burl (pagesE.map some)
        = .ok ((pagesE.map (fun es =>
            es.filterMap (fun t => (parse_thread_entry now burl t).toOption))).join,
            pagesE.length) := by
  intro pagesE
  have hpage : ∀ es : List ThreadEntry,
      parse_page_with_soup now burl (some es)
        = .ok (es.filterMap (fun t => (parse_thread_entry now burl t).toOption)) := by
    intro es
    simp [parse_page_with_soup, parse_fold_eq_filterMap]
  induction pagesE with
  | nil => simp [crawl_pages]
  | cons es rest ih =>
      cases rest with
      | nil =>
          rw [List.map_cons, List.map_nil, crawl_pages, hpage es]
          simp
      | cons es2 rest2 =>
          rw [List.map_cons,
            crawl_pages_cons_ok now burl (some es) ((es2 :: rest2).map some)
              (es.filterMap (fun t => (parse_thread_entry now burl t).toOption))
              (by simp) (hpage es), ih]
          simp

/-- C7: empty accumulated data skips report generation (no report file), and
the crawl treats it as a normal, non-error completion. -/
theorem empty_data_no_report :
    save_to_excel [] = none ∧
    (∀ (now : Int) (burl : String) (pages : List (Option (List ThreadEntry))) (n : Nat),
        crawl_pages now burl pages = .ok ([], n) →
        scrape now burl pages = (none, false)) := by
  constructor
  · rfl
  · intro now burl pages n h
    simp [scrape, h, save_to_excel]

/-- Witness for empty_data_no_report: one page with an empty thread list
crawls to zero records and the scrape ends without a report and without the
error path. -/
theorem empty_data_no_report_witness :
    crawl_pages T1 B1 [some []] = .ok ([], 1) ∧ scrape T1 B1 [some []] = (none, false) :=
  ⟨rfl, empty_data_no_report.2 T1 B1 [some []] 1 rfl⟩

/-- C8: a fatal page-level failure (the listing container absent on some
page) terminates the crawl with no report at all, whatever records earlier
pages contributed, because the report step only runs after the loop finishes
normally. -/
theorem fatal_page_no_report (now : Int) (burl : String)
    (pre post : List (Option (List ThreadEntry))) :
    scrape now burl (pre ++ none :: post) = (none, true) := by
  have h : crawl_pages now burl (pre ++ none :: post) = .error () := by
    induction pre with
    | nil => simp [crawl_pages, parse_page_with_soup]
    | cons p pre ih =>
        simp only [List.cons_append, crawl_pages]
        cases hp : parse_page_with_soup now burl p with
        | error e => rfl
        | ok rs =>
            have hne : (pre ++ none :: post).isEmpty = false := by cases pre <;> simp
            simp [hne, ih]
  simp [scrape, h]

/-- C9: the elapsed-label formatter prints days and hours when the day
component is positive, hours and minutes when only the hour component is,
else minutes alone, and the parser applies the same formatter to both the
publication-elapsed and the last-reply-elapsed labels. -/
theorem elapsed_label_two_units :
    (∀ td : Int,
        (0 < Int.fdiv td 86400 →
          format_timedelta td
            = toString (Int.fdiv td 86400) ++ "天 "
              ++ toString (Int.fdiv (Int.emod td 86400) 3600) ++ "小时") ∧
        (Int.fdiv td 86400 ≤ 0 → 0 < Int.fdiv (Int.emod td 86400) 3600 →
          format_timedelta td
            = toString (Int.fdiv (Int.emod td 86400) 3600) ++ "小时 "
              ++ toString (Int.fdiv (Int.emod (Int.emod td 86400) 3600) 60) ++ "分钟") ∧
        (Int.fdiv td 86400 ≤ 0 → Int.fdiv (Int.emod td 86400) 3600 ≤ 0 →
          format_timedelta td
            = toString (Int.fdiv (Int.emod (Int.emod td 86400) 3600) 60) ++ "分钟")) ∧
    (∀ (now : Int) (burl : String) (t : ThreadEntry) (r : ThreadRecord),
        parse_thread_entry now burl t = .ok r →
        (∀ dt, parse_human_readable_date now r.creationDateStr = some dt →
            r.publishedLabel = format_timedelta (now - dt)) ∧
        (∀ dt, parse_human_readable_date now r.lastReplyDateStr = some dt →
            r.lastReplyLabel = format_timedelta (now - dt))) := by
  constructor
  · intro td
    refine ⟨fun h1 => ?_, fun h1 h2 => ?_, fun h1 h2 => ?_⟩
    · simp only [format_timedelta]
      rw [if_pos h1]
    · simp only [format_timedelta]
      rw [if_neg (by omega), if_pos h2]
    · simp only [format_timedelta]
      rw [if_neg (by omega), if_neg (by omega)]
  · intro now burl t r h
    obtain ⟨hsome, _, hreply⟩ := parse_ok_projections now burl t r h
    exact ⟨fun dt hdt => (hsome dt hdt).2.1, fun dt hdt => (hreply dt hdt).1⟩

/-- Witness for elapsed_label_two_units: a duration of 3 days 2 hours prints
as 3天 2小时, one of 5 hours 7 minutes as 5小时 7分钟, one of 9 minutes as
9分钟, and the record parsed from e2 carries the formatter output on both its
elapsed labels. -/
theorem elapsed_label_two_units_witness :
    format_timedelta (3 * 86400 + 2 * 3600)
      = toString (3 : Int) ++ "天 " ++ toString (2 : Int) ++ "小时" ∧
    format_timedelta (5 * 3600 + 7 * 60)
      = toString (5 : Int) ++ "小时 " ++ toString (7 : Int) ++ "分钟" ∧
    format_timedelta (9 * 60) = toString (9 : Int) ++ "分钟" ∧
    parse_thread_entry T1 B1 e2 = .ok r2 ∧
    r2.publishedLabel = format_timedelta (T1 - (T1 - 34200)) ∧
    r2.lastReplyLabel = format_timedelta (T1 - (T1 - 18000)) := by
  refine ⟨?_, ?_, ?_, parse_e2, ?_, ?_⟩
  · exact ((elapsed_label_two_units.1 (3 * 86400 + 2 * 3600)).1 (by decide)).trans (by decide)
  · exact ((elapsed_label_two_units.1 (5 * 3600 + 7 * 60)).2.1 (by decide) (by decide)).trans
      (by decide)
  · exact ((elapsed_label_two_units.1 (9 * 60)).2.2 (by decide) (by decide)).trans (by decide)
  · exact ((elapsed_label_two_units.2 T1 B1 e2 r2 parse_e2).1 (T1 - 34200) (by decide))
  · exact ((elapsed_label_two_units.2 T1 B1 e2 r2 parse_e2).2 (T1 - 18000) (by decide))

/-- Splitting at the first equals sign leaves the remainder intact. -/
theorem splitFirstAt_first_eq (b : List Char) :
    ∀ a : List Char, '=' ∉ a → splitFirstAt '=' (a ++ '=' :: b) = (a, b) := by
  intro a
  induction a with
  | nil => intro _; simp [splitFirstAt]
  | cons x xs ih =>
      intro h
      have hx : ¬(x = '=') := fun hc => h (by simp [hc])
      have ih' := ih (fun hc => h (List.mem_cons_of_mem x hc))
      simp only [List.cons_append, splitFirstAt, if_neg hx, List.append_eq, ih']

/-- C10: cookie parsing splits on the two-character separator, silently
ignores segments without an equals sign, and splits every other segment at
its first equals sign only, stripping whitespace around name and value, so
values containing further equals signs survive intact. -/
theorem cookie_parsing_lenient :
    (∀ s : String, s.data ≠ [] → containsSub "在这里粘贴".data s.data = false →
        login_with_cookie s = .ok ((splitCookieList s.data).filterMap parse_cookie_item)) ∧
    (∀ cs : List Char, cs.contains '=' = false → parse_cookie_item cs = none) ∧
    (∀ a b : List Char, '=' ∉ a →
        parse_cookie_item (a ++ '=' :: b)
          = some (String.mk (pyStripChars a), String.mk (pyStripChars b))) := by
  refine ⟨?_, ?_, ?_⟩
  · intro s h1 h2
    unfold login_with_cookie
    rw [if_neg]
    simp [h2, List.isEmpty_iff, h1]
  · intro cs h
    unfold parse_cookie_item
    rw [h]
    simp
  · intro a b h
    unfold parse_cookie_item
    have hc : (a ++ '=' :: b).contains '=' = true := by
      simp [List.contains, List.elem_eq_mem]
    rw [hc]
    simp [splitFirstAt_first_eq b a h]

/-- Witness for cookie_parsing_lenient: a concrete cookie string with one
separator-delimited segment lacking an equals sign and one value containing
an equals sign. -/
theorem cookie_parsing_lenient_witness :
    login_with_cookie "a=b; c; d= e=f "
      = .ok ((splitCookieList "a=b; c; d= e=f ".data).filterMap parse_cookie_item) ∧
    parse_cookie_item "c".data = none ∧
    parse_cookie_item ("d".data ++ '=' :: " e=f ".data)
      = some (String.mk (pyStripChars "d".data), String.mk (pyStripChars " e=f ".data)) :=
  ⟨cookie_parsing_lenient.1 "a=b; c; d= e=f " (by decide) (by decide),
   cookie_parsing_lenient.2.1 "c".data (by decide),
   cookie_parsing_lenient.2.2 "d".data " e=f ".data (by decide)⟩

/-- C4: the two-stop color scale hits the start color exactly at the minimum,
the end color exactly at the maximum, maps everything to the start color in
the degenerate equal-bounds case, and on the finite value range agrees with
the specification formula whose ratio is clamped to the unit interval. -/
theorem color_scale_endpoints (v mn mx : ℚ) (s e : Nat × Nat × Nat) :
    (mn < mx → get_color_from_value mn mn mx s e = colorHex s) ∧
    (mn < mx → get_color_from_value mx mn mx s e = colorHex e) ∧
    (mx = mn → get_color_from_value v mn mx s e = colorHex s) ∧
    (mn ≤ v → v ≤ mx → get_color_from_value v mn mx s e = spec_color_clamped v mn mx s e) := by
  refine ⟨?_, ?_, ?_, ?_⟩
  · intro h
    unfold get_color_from_value
    rw [if_neg (ne_of_gt h)]
    simp only [sub_self, zero_div, mul_zero, add_zero, colorHex]
    rw [pyInt_natCast, pyInt_natCast, pyInt_natCast]
  · intro h
    unfold get_color_from_value
    rw [if_neg (ne_of_gt h)]
    rw [div_self (sub_ne_zero.mpr (ne_of_gt h))]
    simp only [mul_one, colorHex]
    rw [show ((s.1 : ℚ) + ((e.1 : ℚ) - (s.1 : ℚ))) = (e.1 : ℚ) by ring,
      show ((s.2.1 : ℚ) + ((e.2.1 : ℚ) - (s.2.1 : ℚ))) = (e.2.1 : ℚ) by ring,
      show ((s.2.2 : ℚ) + ((e.2.2 : ℚ) - (s.2.2 : ℚ))) = (e.2.2 : ℚ) by ring]
    rw [pyInt_natCast, pyInt_natCast, pyInt_natCast]
  · intro h
    unfold get_color_from_value
    rw [if_pos h]
  · intro h1 h2
    rcases eq_or_lt_of_le (le_trans h1 h2) with heq | hlt
    · unfold get_color_from_value spec_color_clamped
      rw [if_pos heq.symm, if_pos heq.symm]
    · have hp0 : 0 ≤ (v - mn) / (mx - mn) :=
        div_nonneg (sub_nonneg.mpr h1) (sub_pos.mpr hlt).le
      have hp1 : (v - mn) / (mx - mn) ≤ 1 :=
        (div_le_one (sub_pos.mpr hlt)).mpr (sub_le_sub_right h2 mn)
      unfold get_color_from_value spec_color_clamped
      rw [if_neg (ne_of_gt hlt), if_neg (ne_of_gt hlt)]
      rw [show clampRatio ((v - mn) / (mx - mn)) = (v - mn) / (mx - mn) from by
        unfold clampRatio
        rw [min_eq_right hp1, max_eq_right hp0]]

/-- Witness for color_scale_endpoints: the concrete scale from mint green to
coral red over the range 0 to 10 at the minimum and at an interior value, and
a degenerate scale with equal bounds. -/
theorem color_scale_endpoints_witness :
    get_color_from_value 0 0 10 (102, 187, 106) (239, 83, 80) = colorHex (102, 187, 106) ∧
    get_color_from_value 5 0 10 (102, 187, 106) (239, 83, 80)
      = spec_color_clamped 5 0 10 (102, 187, 106) (239, 83, 80) ∧
    get_color_from_value 3 7 7 (102, 187, 106) (239, 83, 80) = colorHex (102, 187, 106) :=
  ⟨(color_scale_endpoints 0 0 10 (102, 187, 106) (239, 83, 80)).1 (by norm_num),
   (color_scale_endpoints 5 0 10 (102, 187, 106) (239, 83, 80)).2.2.2
     (by norm_num) (by norm_num),
   (color_scale_endpoints 3 7 7 (102, 187, 106) (239, 83, 80)).2.2.1 rfl⟩

/-! ### Lemmas on digits, substring search and stripping, for the date
normalizer claims -/

/-- Characters built from a digit below ten are ASCII digits. -/
theorem digitChar_isDigit (d : Nat) (hd : d < 10) : (Char.ofNat (48 + d)).isDigit = true := by
  interval_cases d <;> decide

/-- Code point of a digit character. -/
theorem digitChar_toNat (d : Nat) (hd : d < 10) : (Char.ofNat (48 + d)).toNat = 48 + d := by
  interval_cases d <;> decide

/-- Digits are not whitespace. -/
theorem not_space_of_digit (c : Char) (h : c.isDigit = true) : isSpaceChar c = false := by
  cases hc : isSpaceChar c with
  | false => rfl
  | true =>
      exfalso
      unfold isSpaceChar at hc
      simp [Char.isWhitespace] at hc
      rcases hc with ((rfl | rfl) | rfl) | rfl <;> exact absurd h (by decide)

/-- Digits differ from every non-digit character. -/
theorem digit_ne_of_not_digit (c d : Char) (h : c.isDigit = true) (hd : d.isDigit = false) :
    c ≠ d := by
  intro hc
  rw [hc, hd] at h
  exact Bool.noConfusion h

/-- Decimal renderings are nonempty. -/
theorem natToChars_ne_nil (n : Nat) : natToChars n ≠ [] := by
  unfold natToChars
  split
  · simp
  · rename_i hn
    intro h
    rw [List.map_eq_nil, List.reverse_eq_nil_iff] at h
    exact hn (Nat.digits_eq_nil_iff_eq_zero.mp h)

/-- Decimal renderings consist of digit characters. -/
theorem natToChars_all_digits (n : Nat) : ∀ c ∈ natToChars n, c.isDigit = true := by
  unfold natToChars
  split
  · intro c hc
    simp at hc
    subst hc
    decide
  · intro c hc
    simp only [List.mem_map, List.mem_reverse] at hc
    obtain ⟨d, hd, rfl⟩ := hc
    exact digitChar_isDigit d (Nat.digits_lt_base (by norm_num) hd)

/-- Folding digits most-significant-last realizes the little-endian digit
value. -/
theorem foldr_eq_ofDigits : ∀ L : List Nat,
    L.foldr (fun d a => a * 10 + d) 0 = Nat.ofDigits 10 L := by
  intro L
  induction L with
  | nil => simp [Nat.ofDigits]
  | cons d L ih => simp [Nat.ofDigits, ih]; ring

/-- Character-level digit folding agrees with numeric digit folding. -/
theorem foldl_digitChars (L : List Nat) (hL : ∀ d ∈ L, d < 10) : ∀ init : Nat,
    (L.map (fun d => Char.ofNat (48 + d))).foldl (fun a c => a * 10 + (c.toNat - 48)) init
      = L.foldl (fun a d => a * 10 + d) init := by
  induction L with
  | nil => intro init; rfl
  | cons d L ih =>
      intro init
      simp only [List.map_cons, List.foldl_cons]
      rw [digitChar_toNat d (hL d (List.mem_cons_self d L))]
      rw [ih (fun x hx => hL x (List.mem_cons_of_mem d hx))]
      congr 1
      omega

/-- Round trip: the numeric value of the decimal rendering of n is n. -/
theorem charsToNatVal_natToChars (n : Nat) : charsToNatVal (natToChars n) = n := by
  unfold natToChars charsToNatVal
  split
  · rename_i h; subst h; decide
  · rw [foldl_digitChars _ (fun d hd => Nat.digits_lt_base (by norm_num) (List.mem_reverse.mp hd))]
    rw [List.foldl_reverse]
    rw [foldr_eq_ofDigits]
    exact Nat.ofDigits_digits 10 n

/-- Every list is a prefix of itself followed by anything. -/
theorem isPrefixList_self_append (l t : List Char) : isPrefixList l (l ++ t) = true := by
  induction l with
  | nil => rfl
  | cons a as ih => simp [isPrefixList, ih]

/-- Substring search succeeds on a longer haystack. -/
theorem containsSub_cons_of (needle : List Char) (c : Char) (rest : List Char)
    (h : containsSub needle rest = true) : containsSub needle (c :: rest) = true := by
  simp [containsSub, h]

/-- Substring search finds the needle at the front. -/
theorem containsSub_self_append (n t : List Char) (hn : n ≠ []) :
    containsSub n (n ++ t) = true := by
  cases n with
  | nil => exact absurd rfl hn
  | cons a as =>
      show (isPrefixList (a :: as) (a :: (as ++ t)) || containsSub (a :: as) (as ++ t)) = true
      rw [← List.cons_append, isPrefixList_self_append]
      simp

/-- Substring search finds the needle after any prefix. -/
theorem containsSub_append_of (n pre rest : List Char) (h : containsSub n rest = true) :
    containsSub n (pre ++ rest) = true := by
  induction pre with
  | nil => exact h
  | cons c cs ih => exact containsSub_cons_of n c (cs ++ rest) ih

/-- Substring search fails when the needle head occurs nowhere. -/
theorem containsSub_eq_false_of_head (a : Char) (as : List Char) :
    ∀ hay : List Char, (∀ c ∈ hay, c ≠ a) → containsSub (a :: as) hay = false := by
  intro hay
  induction hay with
  | nil => intro _; rfl
  | cons c rest ih =>
      intro h
      have hac : (a = c) = False := by
        simp only [eq_iff_iff, iff_false]
        exact fun hc => (h c (List.mem_cons_self c rest)) hc.symm
      simp [containsSub, isPrefixList, hac, ih (fun x hx => h x (List.mem_cons_of_mem c hx))]

/-- Searching for a needle with a non-digit head skips over leading
digits. -/
theorem containsSub_skip_digits (a : Char) (as : List Char) (ha : a.isDigit = false) :
    ∀ ds tail : List Char, (∀ c ∈ ds, c.isDigit = true) →
      containsSub (a :: as) (ds ++ tail) = containsSub (a :: as) tail := by
  intro ds
  induction ds with
  | nil => intro tail _; rfl
  | cons d ds' ih =>
      intro tail h
      have had : (a = d) = False := by
        simp only [eq_iff_iff, iff_false]
        intro hc
        rw [hc] at ha
        rw [h d (List.mem_cons_self d ds')] at ha
        exact Bool.noConfusion ha
      simp only [List.cons_append, containsSub, isPrefixList, had]
      simp [ih tail (fun x hx => h x (List.mem_cons_of_mem d hx))]

/-- Stripping is the identity when both ends are not whitespace. -/
theorem pyStripChars_no_ws (cs : List Char)
    (h1 : ∀ c ∈ cs.head?, isSpaceChar c = false)
    (h2 : ∀ c ∈ cs.getLast?, isSpaceChar c = false) : pyStripChars cs = cs := by
  cases cs with
  | nil => rfl
  | cons c rest =>
      have hc : isSpaceChar c = false := h1 c rfl
      unfold pyStripChars
      rw [List.dropWhile_cons, if_neg (by simp [hc])]
      cases hrev : (c :: rest).reverse with
      | nil => exact absurd hrev (by simp)
      | cons y ys =>
          have hy : isSpaceChar y = false := by
            apply h2
            rw [← List.head?_reverse, hrev]
            rfl
          rw [List.dropWhile_cons, if_neg (by simp [hy]), ← hrev, List.reverse_reverse]

/-- Digit runs pass through takeWhile. -/
theorem takeWhile_all_append (p : Char → Bool) (ds ts : List Char)
    (h : ∀ c ∈ ds, p c = true) : (ds ++ ts).takeWhile p = ds ++ ts.takeWhile p := by
  induction ds with
  | nil => rfl
  | cons d ds' ih =>
      simp only [List.cons_append, List.takeWhile_cons,
        h d (List.mem_cons_self d ds'), ih (fun x hx => h x (List.mem_cons_of_mem d hx))]
      simp

/-- The leftmost number of a digit run followed by a non-digit tail is the
value of the run. -/
theorem findFirstNat_append (ds ts : List Char) (hne : ds ≠ [])
    (hds : ∀ c ∈ ds, c.isDigit = true) (hts : ts.takeWhile Char.isDigit = []) :
    findFirstNat (ds ++ ts) = some (charsToNatVal ds) := by
  cases ds with
  | nil => exact absurd rfl hne
  | cons d ds' =>
      show (if d.isDigit then some (charsToNatVal ((d :: (ds' ++ ts)).takeWhile Char.isDigit))
            else findFirstNat (ds' ++ ts)) = some (charsToNatVal (d :: ds'))
      rw [if_pos (by rw [hds d (List.mem_cons_self d ds')])]
      rw [← List.cons_append,
        takeWhile_all_append Char.isDigit (d :: ds') ts hds, hts, List.append_nil]

/-- The HH:MM search skips a leading non-digit. -/
theorem findHHMM_skip (c : Char) (hc : c.isDigit = false) (rest : List Char) :
    findHHMM (c :: rest) = findHHMM rest := by
  rcases rest with _ | ⟨b, _ | ⟨c2, _ | ⟨d, _ | ⟨e, r⟩⟩⟩⟩ <;> simp [findHHMM, hc]

/-- The HH:MM search reads a canonical two-digit rendering. -/
theorem findHHMM_at_digits (hh mm : Nat) (hhh : hh < 100) (hmm : mm < 100) :
    findHHMM (hhmmChars hh mm) = some (hh, mm) := by
  have d1 := digitChar_isDigit (hh / 10) (by omega)
  have d2 := digitChar_isDigit (hh % 10) (by omega)
  have d3 := digitChar_isDigit (mm / 10) (by omega)
  have d4 := digitChar_isDigit (mm % 10) (by omega)
  have t1 := digitChar_toNat (hh / 10) (by omega)
  have t2 := digitChar_toNat (hh % 10) (by omega)
  have t3 := digitChar_toNat (mm / 10) (by omega)
  have t4 := digitChar_toNat (mm % 10) (by omega)
  unfold hhmmChars twoDigitChars
  show (if _ && _ && _ && _ && _ then _ else _) = some (hh, mm)
  rw [if_pos (by simp [d1, d2, d3, d4])]
  rw [t1, t2, t3, t4]
  congr 1
  rw [Prod.mk.injEq]
  constructor <;> omega

/-- Stripping is the identity on a decimal rendering followed by a marker
tail whose last character is not whitespace. -/
theorem pyStrip_relative (N : Nat) (tail : List Char) (htail : tail ≠ [])
    (hws : ∀ c ∈ tail.getLast?, isSpaceChar c = false) :
    pyStripChars (natToChars N ++ tail) = natToChars N ++ tail := by
  apply pyStripChars_no_ws
  · intro c hc
    obtain ⟨d, ds', hd⟩ := List.exists_cons_of_ne_nil (natToChars_ne_nil N)
    rw [hd] at hc
    simp only [List.cons_append, List.head?_cons, Option.mem_some_iff] at hc
    subst hc
    exact not_space_of_digit d
      (natToChars_all_digits N d (by rw [hd]; exact List.mem_cons_self d ds'))
  · intro c hc
    rw [List.getLast?_append_of_ne_nil _ htail] at hc
    exact hws c hc

/-- Marker searches with a non-digit head skip over the rendered number. -/
theorem containsSub_relative (a : Char) (as : List Char) (ha : a.isDigit = false) (N : Nat)
    (tail : List Char) :
    containsSub (a :: as) (natToChars N ++ tail) = containsSub (a :: as) tail :=
  containsSub_skip_digits a as ha (natToChars N) tail (natToChars_all_digits N)

/-- The leftmost number of a canonical relative date string is N. -/
theorem findFirstNat_relative (N : Nat) (tail : List Char)
    (hts : tail.takeWhile Char.isDigit = []) :
    findFirstNat (natToChars N ++ tail) = some N := by
  rw [findFirstNat_append _ _ (natToChars_ne_nil N) (natToChars_all_digits N) hts,
    charsToNatVal_natToChars]

/-- Normalization of a canonical N分钟前 string. -/
theorem parse_minutes_ago (T : Int) (N : Nat) :
    parse_human_readable_date T (String.mk (minutesAgoChars N)) = some (T - (N : Int) * 60) := by
  have hstrip : pyStripChars (String.mk (minutesAgoChars N)).data = minutesAgoChars N := by
    show pyStripChars (natToChars N ++ "分钟前".data) = natToChars N ++ "分钟前".data
    exact pyStrip_relative N _ (by decide) (by decide)
  have heq : minutesAgoChars N = natToChars N ++ "分钟前".data := rfl
  have c1 : containsSub "昨天".data (minutesAgoChars N) = false := by
    rw [show ("昨天".data : List Char) = '昨' :: ['天'] from rfl, heq,
      containsSub_relative '昨' ['天'] (by decide) N _]
    decide
  have c2 : containsSub "前天".data (minutesAgoChars N) = false := by
    rw [show ("前天".data : List Char) = '前' :: ['天'] from rfl, heq,
      containsSub_relative '前' ['天'] (by decide) N _]
    decide
  have c3 : containsSub "小时前".data (minutesAgoChars N) = false := by
    rw [show ("小时前".data : List Char) = '小' :: ['时', '前'] from rfl, heq,
      containsSub_relative '小' ['时', '前'] (by decide) N _]
    decide
  have c4 : containsSub "分钟前".data (minutesAgoChars N) = true := by
    have h0 := containsSub_self_append "分钟前".data [] (by decide)
    rw [List.append_nil] at h0
    rw [heq]
    exact containsSub_append_of _ _ _ h0
  have f1 : findFirstNat (minutesAgoChars N) = some N := by
    rw [heq]
    exact findFirstNat_relative N _ (by decide)
  simp only [parse_human_readable_date, hstrip, c1, c2, c3, c4, f1]
  simp

/-- Normalization of a canonical N小时前 string. -/
theorem parse_hours_ago (T : Int) (N : Nat) :
    parse_human_readable_date T (String.mk (hoursAgoChars N)) = some (T - (N : Int) * 3600) := by
  have hstrip : pyStripChars (String.mk (hoursAgoChars N)).data = hoursAgoChars N := by
    show pyStripChars (natToChars N ++ "小时前".data) = natToChars N ++ "小时前".data
    exact pyStrip_relative N _ (by decide) (by decide)
  have heq : hoursAgoChars N = natToChars N ++ "小时前".data := rfl
  have c1 : containsSub "昨天".data (hoursAgoChars N) = false := by
    rw [show ("昨天".data : List Char) = '昨' :: ['天'] from rfl, heq,
      containsSub_relative '昨' ['天'] (by decide) N _]
    decide
  have c2 : containsSub "前天".data (hoursAgoChars N) = false := by
    rw [show ("前天".data : List Char) = '前' :: ['天'] from rfl, heq,
      containsSub_relative '前' ['天'] (by decide) N _]
    decide
  have c3 : containsSub "小时前".data (hoursAgoChars N) = true := by
    have h0 := containsSub_self_append "小时前".data [] (by decide)
    rw [List.append_nil] at h0
    rw [heq]
    exact containsSub_append_of _ _ _ h0
  have f1 : findFirstNat (hoursAgoChars N) = some N := by
    rw [heq]
    exact findFirstNat_relative N _ (by decide)
  simp only [parse_human_readable_date, hstrip, c1, c2, c3, f1]
  simp

/-- Normalization of a canonical N天前 string. -/
theorem parse_days_ago (T : Int) (N : Nat) :
    parse_human_readable_date T (String.mk (daysAgoChars N)) = some (T - (N : Int) * 86400) := by
  have hstrip : pyStripChars (String.mk (daysAgoChars N)).data = daysAgoChars N := by
    show pyStripChars (natToChars N ++ "天前".data) = natToChars N ++ "天前".data
    exact pyStrip_relative N _ (by decide) (by decide)
  have heq : daysAgoChars N = natToChars N ++ "天前".data := rfl
  have c1 : containsSub "昨天".data (daysAgoChars N) = false := by
    rw [show ("昨天".data : List Char) = '昨' :: ['天'] from rfl, heq,
      containsSub_relative '昨' ['天'] (by decide) N _]
    decide
  have c2 : containsSub "前天".data (daysAgoChars N) = false := by
    rw [show ("前天".data : List Char) = '前' :: ['天'] from rfl, heq,
      containsSub_relative '前' ['天'] (by decide) N _]
    decide
  have c3 : containsSub "小时前".data (daysAgoChars N) = false := by
    rw [show ("小时前".data : List Char) = '小' :: ['时', '前'] from rfl, heq,
      containsSub_relative '小' ['时', '前'] (by decide) N _]
    decide
  have c4 : containsSub "分钟前".data (daysAgoChars N) = false := by
    rw [show ("分钟前".data : List Char) = '分' :: ['钟', '前'] from rfl, heq,
      containsSub_relative '分' ['钟', '前'] (by decide) N _]
    decide
  have c5 : containsSub "天前".data (daysAgoChars N) = true := by
    have h0 := containsSub_self_append "天前".data [] (by decide)
    rw [List.append_nil] at h0
    rw [heq]
    exact containsSub_append_of _ _ _ h0
  have f1 : findFirstNat (daysAgoChars N) = some N := by
    rw [heq]
    exact findFirstNat_relative N _ (by decide)
  simp only [parse_human_readable_date, hstrip, c1, c2, c3, c4, c5, f1]
  simp

/-- Normalization of a canonical 昨天 HH:MM string. -/
theorem parse_yesterday (T : Int) (hh mm : Nat) (h1 : hh ≤ 23) (h2 : mm ≤ 59) :
    parse_human_readable_date T (String.mk (yesterdayChars hh mm))
      = some ((Int.fdiv T 86400 - 1) * 86400 + (hh : Int) * 3600 + (mm : Int) * 60) := by
  have hstrip : pyStripChars (String.mk (yesterdayChars hh mm)).data = yesterdayChars hh mm := by
    show pyStripChars (yesterdayChars hh mm) = yesterdayChars hh mm
    apply pyStripChars_no_ws
    · intro c hc
      simp only [yesterdayChars, List.head?_cons, Option.mem_some_iff] at hc
      subst hc
      decide
    · intro c hc
      have hform : yesterdayChars hh mm
          = ['昨', '天', ' ', Char.ofNat (48 + hh / 10), Char.ofNat (48 + hh % 10), ':',
             Char.ofNat (48 + mm / 10)] ++ [Char.ofNat (48 + mm % 10)] := rfl
      rw [hform, List.getLast?_concat, Option.mem_some_iff] at hc
      subst hc
      exact not_space_of_digit _ (digitChar_isDigit (mm % 10) (by omega))
  have hcy : containsSub "昨天".data (yesterdayChars hh mm) = true := by
    show containsSub ['昨', '天'] ('昨' :: '天' :: ' ' :: hhmmChars hh mm) = true
    simp [containsSub, isPrefixList]
  have hfind : findHHMM (yesterdayChars hh mm) = some (hh, mm) := by
    show findHHMM ('昨' :: '天' :: ' ' :: hhmmChars hh mm) = some (hh, mm)
    rw [findHHMM_skip '昨' (by decide), findHHMM_skip '天' (by decide),
      findHHMM_skip ' ' (by decide), findHHMM_at_digits hh mm (by omega) (by omega)]
  simp only [parse_human_readable_date, hstrip, hcy, hfind]
  simp [h1, h2]

/-- Normalization of a canonical 前天 HH:MM string. -/
theorem parse_day_before (T : Int) (hh mm : Nat) (h1 : hh ≤ 23) (h2 : mm ≤ 59) :
    parse_human_readable_date T (String.mk (dayBeforeChars hh mm))
      = some ((Int.fdiv T 86400 - 2) * 86400 + (hh : Int) * 3600 + (mm : Int) * 60) := by
  have hstrip : pyStripChars (String.mk (dayBeforeChars hh mm)).data = dayBeforeChars hh mm := by
    show pyStripChars (dayBeforeChars hh mm) = dayBeforeChars hh mm
    apply pyStripChars_no_ws
    · intro c hc
      simp only [dayBeforeChars, List.head?_cons, Option.mem_some_iff] at hc
      subst hc
      decide
    · intro c hc
      have hform : dayBeforeChars hh mm
          = ['前', '天', ' ', Char.ofNat (48 + hh / 10), Char.ofNat (48 + hh % 10), ':',
             Char.ofNat (48 + mm / 10)] ++ [Char.ofNat (48 + mm % 10)] := rfl
      rw [hform, List.getLast?_concat, Option.mem_some_iff] at hc
      subst hc
      exact not_space_of_digit _ (digitChar_isDigit (mm % 10) (by omega))
  have hcy : containsSub "昨天".data (dayBeforeChars hh mm) = false := by
    rw [show ("昨天".data : List Char) = '昨' :: ['天'] from rfl]
    apply containsSub_eq_false_of_head
    intro c hc
    simp only [dayBeforeChars, hhmmChars, twoDigitChars, List.cons_append, List.mem_cons,
      List.mem_append, List.not_mem_nil, or_false] at hc
    rcases hc with rfl | rfl | rfl | rfl | rfl | h0 | rfl | rfl | rfl
    · decide
    · decide
    · decide
    · exact digit_ne_of_not_digit _ _ (digitChar_isDigit (hh / 10) (by omega)) (by decide)
    · exact digit_ne_of_not_digit _ _ (digitChar_isDigit (hh % 10) (by omega)) (by decide)
    · exact h0.elim
    · decide
    · exact digit_ne_of_not_digit _ _ (digitChar_isDigit (mm / 10) (by omega)) (by decide)
    · exact digit_ne_of_not_digit _ _ (digitChar_isDigit (mm % 10) (by omega)) (by decide)
  have hcq : containsSub "前天".data (dayBeforeChars hh mm) = true := by
    show containsSub ['前', '天'] ('前' :: '天' :: ' ' :: hhmmChars hh mm) = true
    simp [containsSub, isPrefixList]
  have hfind : findHHMM (dayBeforeChars hh mm) = some (hh, mm) := by
    show findHHMM ('前' :: '天' :: ' ' :: hhmmChars hh mm) = some (hh, mm)
    rw [findHHMM_skip '前' (by decide), findHHMM_skip '天' (by decide),
      findHHMM_skip ' ' (by decide), findHHMM_at_digits hh mm (by omega) (by omega)]
  simp only [parse_human_readable_date, hstrip, hcy, hcq, hfind]
  simp [h1, h2]

/-- Priority of the yesterday branch: any string whose stripped form contains
the 昨天 marker and yields a valid embedded HH:MM normalizes to yesterday at
that time, whatever other markers the string contains. -/
theorem parse_yesterday_priority (T : Int) (s : String) (hh mm : Nat)
    (hcon : containsSub "昨天".data (pyStripChars s.data) = true)
    (hfind : findHHMM (pyStripChars s.data) = some (hh, mm))
    (h1 : hh ≤ 23) (h2 : mm ≤ 59) :
    parse_human_readable_date T s
      = some ((Int.fdiv T 86400 - 1) * 86400 + (hh : Int) * 3600 + (mm : Int) * 60) := by
  simp only [parse_human_readable_date, hcon, hfind]
  simp [h1, h2]

/-- C2 counterexample: the date string 昨天 14:30 5分钟前 contains the
minutes-ago marker with N = 5, yet the normalizer maps it to yesterday at
14:30 and not to the anchor minus five minutes — the yesterday pattern is
tried before the minutes pattern, refuting the priority order the claim
states (minutes, hours, days, then yesterday and day-before-yesterday). -/
theorem date_priority_counterexample :
    containsSub "5分钟前".data s0.data = true ∧
    parse_human_readable_date T2 s0
      = some ((Int.fdiv T2 86400 - 1) * 86400 + 14 * 3600 + 30 * 60) ∧
    parse_human_readable_date T2 s0 ≠ some (T2 - 5 * 60) := by
  refine ⟨by decide, by decide, by decide⟩

/-- C2 amended: with the priority order of the source — yesterday,
day-before-yesterday, hours ago, minutes ago, days ago, first matching
marker winning — the normalizer maps the canonical renderings N分钟前,
N小时前, N天前 to the anchor minus N minutes, hours and days respectively for
every natural N, maps 昨天 HH:MM and 前天 HH:MM with a valid 24-hour time to
the anchor day minus one and two days at that time, and the yesterday
pattern wins over any other marker present in the same string. -/
theorem date_normalizer_amended (T : Int) :
    (∀ N : Nat, parse_human_readable_date T (String.mk (minutesAgoChars N))
        = some (T - (N : Int) * 60)) ∧
    (∀ N : Nat, parse_human_readable_date T (String.mk (hoursAgoChars N))
        = some (T - (N : Int) * 3600)) ∧
    (∀ N : Nat, parse_human_readable_date T (String.mk (daysAgoChars N))
        = some (T - (N : Int) * 86400)) ∧
    (∀ hh mm : Nat, hh ≤ 23 → mm ≤ 59 →
        parse_human_readable_date T (String.mk (yesterdayChars hh mm))
          = some ((Int.fdiv T 86400 - 1) * 86400 + (hh : Int) * 3600 + (mm : Int) * 60)) ∧
    (∀ hh mm : Nat, hh ≤ 23 → mm ≤ 59 →
        parse_human_readable_date T (String.mk (dayBeforeChars hh mm))
          = some ((Int.fdiv T 86400 - 2) * 86400 + (hh : Int) * 3600 + (mm : Int) * 60)) ∧
    (∀ (s : String) (hh mm : Nat),
        containsSub "昨天".data (pyStripChars s.data) = true →
        findHHMM (pyStripChars s.data) = some (hh, mm) → hh ≤ 23 → mm ≤ 59 →
        parse_human_readable_date T s
          = some ((Int.fdiv T 86400 - 1) * 86400 + (hh : Int) * 3600 + (mm : Int) * 60)) :=
  ⟨parse_minutes_ago T, parse_hours_ago T, parse_days_ago T,
   parse_yesterday T, parse_day_before T,
   fun s hh mm hcon hfind h1 h2 => parse_yesterday_priority T s hh mm hcon hfind h1 h2⟩

/-- Witness for date_normalizer_amended at the anchor T2: five minutes ago,
twelve hours ago, three days ago, yesterday 14:30, the day before yesterday
09:05, and the mixed-marker string s0. -/
theorem date_normalizer_amended_witness :
    parse_human_readable_date T2 (String.mk (minutesAgoChars 5)) = some (T2 - (5 : Int) * 60) ∧
    parse_human_readable_date T2 (String.mk (hoursAgoChars 12)) = some (T2 - (12 : Int) * 3600) ∧
    parse_human_readable_date T2 (String.mk (daysAgoChars 3)) = some (T2 - (3 : Int) * 86400) ∧
    parse_human_readable_date T2 (String.mk (yesterdayChars 14 30))
      = some ((Int.fdiv T2 86400 - 1) * 86400 + (14 : Int) * 3600 + (30 : Int) * 60) ∧
    parse_human_readable_date T2 (String.mk (dayBeforeChars 9 5))
      = some ((Int.fdiv T2 86400 - 2) * 86400 + (9 : Int) * 3600 + (5 : Int) * 60) ∧
    parse_human_readable_date T2 s0
      = some ((Int.fdiv T2 86400 - 1) * 86400 + (14 : Int) * 3600 + (30 : Int) * 60) :=
  ⟨(date_normalizer_amended T2).1 5,
   (date_normalizer_amended T2).2.1 12,
   (date_normalizer_amended T2).2.2.1 3,
   (date_normalizer_amended T2).2.2.2.1 14 30 (by decide) (by decide),
   (date_normalizer_amended T2).2.2.2.2.1 9 5 (by decide) (by decide),
   (date_normalizer_amended T2).2.2.2.2.2 s0 14 30 (by decide) (by decide)
     (by decide) (by decide)⟩


/-! ### Lemmas for the report-sort claims -/

theorem ascPair_trans {a b c : Nat × ℚ} (h1 : ascPair a b) (h2 : ascPair b c) : ascPair a c := by
  rcases h1 with h1 | ⟨e1, i1⟩ <;> rcases h2 with h2 | ⟨e2, i2⟩
  · exact Or.inl (lt_trans h1 h2)
  · exact Or.inl (e2 ▸ h1)
  · exact Or.inl (e1 ▸ h2)
  · exact Or.inr ⟨e1.trans e2, le_trans i1 i2⟩

theorem argInsertRight_perm (p : Nat × ℚ) : ∀ l, (argInsertRight p l).Perm (p :: l) := by
  intro l
  induction l with
  | nil => simp [argInsertRight]
  | cons q qs ih =>
      unfold argInsertRight
      split
      · exact List.Perm.refl _
      · exact (ih.cons q).trans (List.Perm.swap p q qs)

theorem argInsertRight_sorted (p : Nat × ℚ) :
    ∀ l, l.Pairwise ascPair → (∀ q ∈ l, q.1 < p.1) →
      (argInsertRight p l).Pairwise ascPair := by
  intro l
  induction l with
  | nil => intro _ _; simp [argInsertRight]
  | cons q qs ih =>
      intro hs hidx
      have hq := List.pairwise_cons.mp hs
      unfold argInsertRight
      by_cases h : p.2 < q.2
      · rw [if_pos h]
        refine List.Pairwise.cons ?_ hs
        intro x hx
        rcases List.mem_cons.mp hx with rfl | hx'
        · exact Or.inl h
        · exact ascPair_trans (Or.inl h) (hq.1 x hx')
      · rw [if_neg h]
        refine List.Pairwise.cons ?_
          (ih hq.2 (fun x hx => hidx x (List.mem_cons_of_mem q hx)))
        intro x hx
        rcases List.mem_cons.mp ((argInsertRight_perm p qs).mem_iff.mp hx) with rfl | hx''
        · rcases lt_or_eq_of_le (not_lt.mp h) with hlt | heq
          · exact Or.inl hlt
          · exact Or.inr ⟨heq, le_of_lt (hidx q (List.mem_cons_self q qs))⟩
        · exact hq.1 x hx''

theorem argInsertLoop_perm : ∀ ps acc, (argInsertLoop ps acc).Perm (acc ++ ps) := by
  intro ps
  induction ps with
  | nil => intro acc; simp [argInsertLoop]
  | cons p ps ih =>
      intro acc
      show (argInsertLoop ps (argInsertRight p acc)).Perm (acc ++ p :: ps)
      refine (ih (argInsertRight p acc)).trans ?_
      refine (List.Perm.append_right ps (argInsertRight_perm p acc)).trans ?_
      exact List.perm_middle.symm

theorem argInsertLoop_sorted : ∀ ps acc, acc.Pairwise ascPair →
    ps.Pairwise (fun a b => a.1 < b.1) → (∀ p ∈ ps, ∀ q ∈ acc, q.1 < p.1) →
    (argInsertLoop ps acc).Pairwise ascPair := by
  intro ps
  induction ps with
  | nil => intro acc hacc _ _; exact hacc
  | cons p ps ih =>
      intro acc hacc hps hidx
      have hp := List.pairwise_cons.mp hps
      refine ih (argInsertRight p acc)
        (argInsertRight_sorted p acc hacc (fun q hq => hidx p (List.mem_cons_self p ps) q hq))
        hp.2 ?_
      intro x hx q hq
      rcases List.mem_cons.mp ((argInsertRight_perm p acc).mem_iff.mp hq) with rfl | hq'
      · exact hp.1 x hx
      · exact hidx x (List.mem_cons_of_mem p hx) q hq'

theorem pairwise_fst_lt_enumFrom (l : List ℚ) :
    ∀ k, (List.enumFrom k l).Pairwise (fun a b => a.1 < b.1) := by
  induction l with
  | nil => intro k; simp
  | cons x l ih =>
      intro k
      rw [List.enumFrom_cons]
      refine List.Pairwise.cons ?_ (ih (k + 1))
      intro a ha
      have := (List.mem_enumFrom (by exact ha : ((a.1 : Nat), a.2) ∈ List.enumFrom (k + 1) l)).1
      omega

theorem pairwise_fst_lt_enum (l : List ℚ) : l.enum.Pairwise (fun a b => a.1 < b.1) := by
  cases l with
  | nil => simp
  | cons x l =>
      rw [List.enum_cons]
      refine List.Pairwise.cons ?_ (pairwise_fst_lt_enumFrom l 1)
      intro a ha
      have := (List.mem_enumFrom (by exact ha : ((a.1 : Nat), a.2) ∈ List.enumFrom 1 l)).1
      omega

theorem npInsertionArgsort_perm (vals : List ℚ) :
    (npInsertionArgsort vals).Perm (List.range vals.length) := by
  unfold npInsertionArgsort
  have h := (argInsertLoop_perm vals.enum []).map Prod.fst
  rw [List.nil_append, List.enum_map_fst] at h
  exact h

theorem npInsertionArgsort_sorted (vals : List ℚ) :
    (npInsertionArgsort vals).Pairwise (fun i j =>
      vals.getD i 0 < vals.getD j 0 ∨ (vals.getD i 0 = vals.getD j 0 ∧ i ≤ j)) := by
  have hs := argInsertLoop_sorted vals.enum [] (by simp) (pairwise_fst_lt_enum vals)
    (by simp)
  unfold npInsertionArgsort
  rw [List.pairwise_map]
  have hmem : ∀ x ∈ argInsertLoop vals.enum [], x ∈ vals.enum := by
    intro x hx
    have := (argInsertLoop_perm vals.enum []).mem_iff.mp hx
    simpa using this
  refine hs.imp_of_mem ?_
  intro a b ha hb hab
  have hva : vals.getD a.1 0 = a.2 := by
    have h1 := List.mem_enum_iff_getElem?.mp (hmem a ha)
    rw [List.getD_eq_getElem?_getD, h1]
    rfl
  have hvb : vals.getD b.1 0 = b.2 := by
    have h1 := List.mem_enum_iff_getElem?.mp (hmem b hb)
    rw [List.getD_eq_getElem?_getD, h1]
    rfl
  rcases hab with h | ⟨e, i⟩
  · exact Or.inl (by rw [hva, hvb]; exact h)
  · exact Or.inr ⟨by rw [hva, hvb]; exact e, i⟩
theorem map_sub_one_range (n : Nat) :
    (List.range n).map (fun j => n - 1 - j) = (List.range n).reverse := by
  apply List.ext_get
  · simp
  · intro i h1 h2
    simp only [List.get_eq_getElem, List.getElem_map, List.getElem_range, List.getElem_reverse]
    simp only [List.length_range]

theorem nargsortDesc_perm_small (vals : List ℚ) (h : vals.length ≤ 16) :
    (nargsortDesc vals).Perm (List.range vals.length) := by
  unfold nargsortDesc npAargsortQuicksort
  rw [if_pos (by simpa using h)]
  have hperm := npInsertionArgsort_perm vals.reverse
  rw [List.length_reverse] at hperm
  refine (List.reverse_perm _).trans ?_
  refine (hperm.map (fun p => vals.length - 1 - p)).trans ?_
  rw [map_sub_one_range]
  exact List.reverse_perm _

theorem nargsortDesc_sorted_small (vals : List ℚ) (h : vals.length ≤ 16) :
    (nargsortDesc vals).Pairwise (fun i j =>
      vals.getD j 0 < vals.getD i 0 ∨ (vals.getD i 0 = vals.getD j 0 ∧ i < j)) := by
  unfold nargsortDesc npAargsortQuicksort
  rw [if_pos (by simpa using h)]
  have hperm := npInsertionArgsort_perm vals.reverse
  rw [List.length_reverse] at hperm
  have hnodup : (npInsertionArgsort vals.reverse).Nodup :=
    hperm.symm.nodup (List.nodup_range vals.length)
  have hs := (npInsertionArgsort_sorted vals.reverse).and hnodup
  rw [List.pairwise_reverse, List.pairwise_map]
  refine hs.imp_of_mem ?_
  intro a b ha hb hab
  have han : a < vals.length := by
    have := List.mem_range.mp (hperm.mem_iff.mp ha)
    omega
  have hbn : b < vals.length := by
    have := List.mem_range.mp (hperm.mem_iff.mp hb)
    omega
  have hva : vals.reverse.getD a 0 = vals.getD (vals.length - 1 - a) 0 := by
    rw [List.getD_eq_getElem _ _ (by simpa using han),
      List.getD_eq_getElem _ _ (by omega : vals.length - 1 - a < vals.length),
      List.getElem_reverse]
  have hvb : vals.reverse.getD b 0 = vals.getD (vals.length - 1 - b) 0 := by
    rw [List.getD_eq_getElem _ _ (by simpa using hbn),
      List.getD_eq_getElem _ _ (by omega : vals.length - 1 - b < vals.length),
      List.getElem_reverse]
  obtain ⟨hab1, hne⟩ := hab
  rcases hab1 with hlt | ⟨he, hle⟩
  · exact Or.inl (by rw [← hva, ← hvb]; exact hlt)
  · refine Or.inr ⟨by rw [← hva, ← hvb]; exact he.symm, ?_⟩
    have : a < b := lt_of_le_of_ne hle hne
    omega
/-- C3 counterexample: seventeen rows with equal dailyViews and distinct
titles — one more than the insertion-sort threshold of the numpy introsort
behind the pandas default sort — are permuted by the sort: the output is a
permutation of the input that differs from it, so two rows with equal
dailyViews do not keep their original relative order, refuting stability for
every input sequence. -/
theorem sort_stability_counterexample :
    rows17.map ThreadRecord.dailyViews = List.replicate 17 5 ∧
    (sortValuesDesc rows17).Perm rows17 ∧
    sortValuesDesc rows17 ≠ rows17 :=
  ⟨by decide, by decide, by decide⟩


/-! ### Properties of segment operations -/

theorem SegOp.refl (t : List Nat) (lo hi : Nat) : SegOp t t lo hi :=
  ⟨rfl, fun _ _ => rfl, List.Perm.refl t⟩

theorem SegOp.trans {t r s : List Nat} {lo hi : Nat}
    (h1 : SegOp t r lo hi) (h2 : SegOp r s lo hi) : SegOp t s lo hi :=
  ⟨h2.1.trans h1.1, fun k hk => (h2.2.1 k hk).trans (h1.2.1 k hk), h2.2.2.trans h1.2.2⟩

theorem SegOp.mono {t r : List Nat} {lo hi lo' hi' : Nat}
    (h : SegOp t r lo' hi') (hlo : lo ≤ lo') (hhi : hi' ≤ hi) : SegOp t r lo hi :=
  ⟨h.1, fun k hk => h.2.1 k (by omega), h.2.2⟩

theorem getD_eq_getElem_of_lt (l : List Nat) (k : Nat) (h : k < l.length) :
    l.getD k 0 = l[k] := by
  simp [List.getD_eq_getElem?_getD, List.getElem?_eq_getElem h]

theorem getD_set_eq (l : List Nat) (n v : Nat) (hn : n < l.length) :
    (l.set n v).getD n 0 = v := by
  rw [getD_eq_getElem_of_lt _ _ (by simpa using hn), List.getElem_set_self]

theorem getD_set_ne (l : List Nat) (n m v : Nat) (h : n ≠ m) :
    (l.set n v).getD m 0 = l.getD m 0 := by
  by_cases hm : m < l.length
  · rw [getD_eq_getElem_of_lt _ _ (by simpa using hm),
      List.getElem_set_ne (by omega), getD_eq_getElem_of_lt _ _ hm]
  · rw [List.getD_eq_default _ _ (by simp; omega), List.getD_eq_default _ _ (by omega)]

/-- Counting after a single in-bounds update, in addition form. -/
theorem count_set_eq (l : List Nat) : ∀ n x v : Nat, n < l.length →
    (l.set n v).count x + (if l.getD n 0 = x then 1 else 0)
      = l.count x + (if v = x then 1 else 0) := by
  induction l with
  | nil => intro n x v h; simp at h
  | cons c t ih =>
      intro n x v h
      cases n with
      | zero =>
          simp only [List.set_cons_zero, List.count_cons, List.getD_cons_zero, beq_iff_eq]
          omega
      | succ n =>
          have h' : n < t.length := by simpa using h
          have hrec := ih n x v h'
          simp only [List.set_cons_succ, List.count_cons, List.getD_cons_succ, beq_iff_eq]
          omega

/-- Two lists that agree everywhere except at two positions whose entries are
exchanged are permutations of each other. -/
theorem perm_of_transposed (s s' : List Nat) (a b : Nat)
    (hlen : s'.length = s.length) (ha : a < s.length) (hb : b < s.length)
    (h1 : s'.getD a 0 = s.getD b 0) (h2 : s'.getD b 0 = s.getD a 0)
    (h3 : ∀ k, k ≠ a → k ≠ b → s'.getD k 0 = s.getD k 0) : s'.Perm s := by
  have hset : s' = (s.set a (s.getD b 0)).set b (s.getD a 0) := by
    apply List.ext_getElem
    · simp [hlen]
    · intro k hk hk'
      have hk2 : k < s.length := by simpa [hlen] using hk
      by_cases hkb : k = b
      · subst hkb
        rw [← getD_eq_getElem_of_lt _ _ hk, h2, List.getElem_set_self]
      · by_cases hka : k = a
        · subst hka
          rw [← getD_eq_getElem_of_lt _ _ hk, h1,
            List.getElem_set_ne (by omega), List.getElem_set_self]
        · rw [← getD_eq_getElem_of_lt _ _ hk, h3 k hka hkb,
            List.getElem_set_ne (by omega), List.getElem_set_ne (by omega),
            getD_eq_getElem_of_lt _ _ hk2]
  subst hset
  rw [List.perm_iff_count]
  intro x
  have hb' : b < (s.set a (s.getD b 0)).length := by simpa using hb
  have e1 := count_set_eq s a x (s.getD b 0) ha
  have e2 := count_set_eq (s.set a (s.getD b 0)) b x (s.getD a 0) hb'
  have hmid : (s.set a (s.getD b 0)).getD b 0 = s.getD b 0 := by
    by_cases hab : a = b
    · subst hab; exact getD_set_eq s a (s.getD a 0) ha
    · exact getD_set_ne s a b (s.getD b 0) hab
  rw [hmid] at e2
  omega

theorem lSwap_length (t : List Nat) (i j : Nat) : (lSwap t i j).length = t.length := by
  simp [lSwap]

theorem lSwap_getD_snd (t : List Nat) (i j : Nat) (hj : j < t.length) :
    (lSwap t i j).getD j 0 = t.getD i 0 := by
  rw [lSwap, getD_eq_getElem_of_lt _ _ (by simpa), List.getElem_set_self]

theorem lSwap_getD_fst (t : List Nat) (i j : Nat) (hi : i < t.length)
    (hij : i ≠ j) : (lSwap t i j).getD i 0 = t.getD j 0 := by
  rw [lSwap, getD_eq_getElem_of_lt _ _ (by simpa),
    List.getElem_set_ne (by omega), List.getElem_set_self]

theorem lSwap_getD_other (t : List Nat) (i j k : Nat) (hki : k ≠ i) (hkj : k ≠ j) :
    (lSwap t i j).getD k 0 = t.getD k 0 := by
  by_cases hk : k < t.length
  · rw [lSwap, getD_eq_getElem_of_lt _ _ (by simpa),
      List.getElem_set_ne (by omega), List.getElem_set_ne (by omega),
      getD_eq_getElem_of_lt _ _ hk]
  · have h1 : (lSwap t i j).getD k 0 = 0 := by
      apply List.getD_eq_default; simp [lSwap]; omega
    have h2 : t.getD k 0 = 0 := by apply List.getD_eq_default; omega
    rw [h1, h2]

theorem lSwap_perm (t : List Nat) (i j : Nat) (hi : i < t.length)
    (hj : j < t.length) : (lSwap t i j).Perm t := by
  apply perm_of_transposed _ _ i j (lSwap_length t i j) hi hj
  · by_cases hij : i = j
    · subst hij; exact lSwap_getD_snd t i i hi
    · exact lSwap_getD_fst t i j hi hij
  · exact lSwap_getD_snd t i j hj
  · exact fun k hki hkj => lSwap_getD_other t i j k hki hkj

theorem lSwap_segOp (t : List Nat) (i j lo hi : Nat) (hi1 : lo ≤ i) (hi2 : i ≤ hi)
    (hj1 : lo ≤ j) (hj2 : j ≤ hi) (hil : i < t.length) (hjl : j < t.length) :
    SegOp t (lSwap t i j) lo hi :=
  ⟨lSwap_length t i j,
   fun k hk => lSwap_getD_other t i j k (by omega) (by omega),
   lSwap_perm t i j hil hjl⟩

/-- Default-valued lookup inside a take-of-drop segment. -/
theorem seg_getD (l : List Nat) (lo m p : Nat) (hp : p < m) (hl : lo + p < l.length) :
    ((l.drop lo).take m).getD p 0 = l.getD (lo + p) 0 := by
  have hp' : p < ((l.drop lo).take m).length := by simp; omega
  rw [getD_eq_getElem_of_lt _ _ hp', List.getElem_take, List.getElem_drop,
    getD_eq_getElem_of_lt _ _ hl]

/-- The segments of a segment operation are permutations of each other. -/
theorem SegOp.seg_perm {t r : List Nat} {lo hi : Nat} (h : SegOp t r lo hi)
    (hlo : lo ≤ hi + 1) :
    ((r.drop lo).take (hi + 1 - lo)).Perm ((t.drop lo).take (hi + 1 - lo)) := by
  obtain ⟨hlen, hout, hperm⟩ := h
  have hsplit : ∀ l : List Nat,
      l = l.take lo ++ (l.drop lo).take (hi + 1 - lo) ++ l.drop (hi + 1) := by
    intro l
    conv_lhs => rw [← List.take_append_drop lo l]
    rw [List.append_assoc]
    congr 1
    conv_lhs => rw [← List.take_append_drop (hi + 1 - lo) (l.drop lo)]
    congr 1
    rw [List.drop_drop]
    congr 1
    omega
  have htake : r.take lo = t.take lo := by
    apply List.ext_getElem (by simp [hlen])
    intro m hm hm'
    rw [List.getElem_take, List.getElem_take,
      ← getD_eq_getElem_of_lt, ← getD_eq_getElem_of_lt]
    exact hout m (Or.inl (by simp at hm; omega))
  have hdrop : r.drop (hi + 1) = t.drop (hi + 1) := by
    apply List.ext_getElem (by simp [hlen])
    intro m hm hm'
    rw [List.getElem_drop, List.getElem_drop,
      ← getD_eq_getElem_of_lt, ← getD_eq_getElem_of_lt]
    exact hout (hi + 1 + m) (Or.inr (by omega))
  have hperm2 := hperm
  rw [hsplit r, hsplit t, htake, hdrop] at hperm2
  rw [List.append_assoc, List.append_assoc] at hperm2
  exact (List.perm_append_right_iff _).mp ((List.perm_append_left_iff _).mp hperm2)

/-- Values inside the segment of a segment operation come from values inside
the source segment: any property of all source segment values transfers. -/
theorem SegOp.transfer {t r : List Nat} {lo hi : Nat} (h : SegOp t r lo hi)
    (hhi : hi < t.length) (P : Nat → Prop)
    (hp : ∀ k, lo ≤ k → k ≤ hi → P (t.getD k 0)) :
    ∀ k, lo ≤ k → k ≤ hi → P (r.getD k 0) := by
  intro k hk1 hk2
  have hlen := h.1
  have hsegperm := h.seg_perm (by omega)
  have hseglen : k - lo < ((r.drop lo).take (hi + 1 - lo)).length := by
    simp [hlen]; omega
  have hseg := seg_getD r lo (hi + 1 - lo) (k - lo) (by omega) (by omega)
  rw [show lo + (k - lo) = k from by omega] at hseg
  have hmemr : r.getD k 0 ∈ (r.drop lo).take (hi + 1 - lo) := by
    rw [← hseg, getD_eq_getElem_of_lt _ _ hseglen]
    exact List.getElem_mem hseglen
  have hmemt : r.getD k 0 ∈ (t.drop lo).take (hi + 1 - lo) := hsegperm.mem_iff.mp hmemr
  obtain ⟨p, hp1, hp2⟩ := List.mem_iff_getElem.mp hmemt
  have hp3 : p < hi + 1 - lo := by simp at hp1; omega
  have hval : r.getD k 0 = t.getD (lo + p) 0 := by
    rw [← hp2, ← seg_getD t lo (hi + 1 - lo) p hp3 (by omega),
      getD_eq_getElem_of_lt _ _ hp1]
  rw [hval]
  exact hp (lo + p) (by omega) (by omega)

/-! ### Correctness of the insertion-sort pass of aquicksort -/

theorem drop_getD (l : List Nat) (n p : Nat) : (l.drop n).getD p 0 = l.getD (n + p) 0 := by
  by_cases h : n + p < l.length
  · rw [getD_eq_getElem_of_lt _ _ (by simp; omega), List.getElem_drop,
      getD_eq_getElem_of_lt _ _ h]
  · rw [List.getD_eq_default _ _ (by simp; omega), List.getD_eq_default _ _ (by omega)]

theorem take_getD (l : List Nat) (n p : Nat) (h : p < n) :
    (l.take n).getD p 0 = l.getD p 0 := by
  by_cases hp : p < l.length
  · rw [getD_eq_getElem_of_lt _ _ (by simp; omega), List.getElem_take,
      getD_eq_getElem_of_lt _ _ hp]
  · rw [List.getD_eq_default _ _ (by simp; omega), List.getD_eq_default _ _ (by omega)]

theorem insCF_length (t0 : List Nat) (pj pi : Nat) (hj : pj ≤ pi)
    (hi : pi < t0.length) : (insCF t0 pj pi).length = t0.length := by
  simp [insCF]; omega

theorem insCF_getD_le (t0 : List Nat) (pj pi k : Nat) (hk : k ≤ pj)
    (hi : pi < t0.length) (hj : pj ≤ pi) :
    (insCF t0 pj pi).getD k 0 = t0.getD k 0 := by
  rw [insCF, List.getD_append _ _ 0 k (by simp; omega), take_getD _ _ _ (by omega)]

theorem insCF_getD_mid (t0 : List Nat) (pj pi k : Nat) (hk1 : pj < k) (hk2 : k ≤ pi)
    (hi : pi < t0.length) :
    (insCF t0 pj pi).getD k 0 = t0.getD (k - 1) 0 := by
  have hlt : (t0.take (pj + 1)).length = pj + 1 := List.length_take_of_le (by omega)
  rw [insCF, List.getD_append_right _ _ 0 k (by omega), hlt,
    List.getD_append _ _ 0 _ (by simp; omega),
    take_getD _ _ _ (by omega), drop_getD]
  congr 1
  omega

theorem insCF_getD_gt (t0 : List Nat) (pj pi k : Nat) (hk : pi < k)
    (hj : pj ≤ pi) (hi : pi < t0.length) :
    (insCF t0 pj pi).getD k 0 = t0.getD k 0 := by
  have hlt : (t0.take (pj + 1)).length = pj + 1 := List.length_take_of_le (by omega)
  have hlm : ((t0.drop pj).take (pi - pj)).length = pi - pj := by simp; omega
  rw [insCF, List.getD_append_right _ _ 0 k (by omega), hlt,
    List.getD_append_right _ _ 0 _ (by omega), hlm, drop_getD]
  congr 1
  omega

theorem insCF_self (t0 : List Nat) (pi : Nat) : insCF t0 pi pi = t0 := by
  simp [insCF]

theorem insCF_step (t0 : List Nat) (pj pi : Nat) (h1 : 1 ≤ pj) (hj : pj ≤ pi)
    (hi : pi < t0.length) :
    (insCF t0 pj pi).set pj ((insCF t0 pj pi).getD (pj - 1) 0) = insCF t0 (pj - 1) pi := by
  have hlen := insCF_length t0 pj pi hj hi
  have hlen' := insCF_length t0 (pj - 1) pi (by omega) hi
  apply List.ext_getElem (by simp [hlen, hlen'])
  intro k hk hk'
  rw [← getD_eq_getElem_of_lt, ← getD_eq_getElem_of_lt]
  rw [insCF_getD_le t0 pj pi (pj - 1) (by omega) hi hj]
  by_cases hkj : k = pj
  · rw [hkj]
    rw [getD_set_eq _ _ _ (by rw [hlen]; omega),
      insCF_getD_mid t0 (pj - 1) pi pj (by omega) (by omega) hi]
  · rw [getD_set_ne _ _ _ _ (fun hc => hkj hc.symm)]
    rcases Nat.lt_or_ge k pj with hlt | hge
    · rw [insCF_getD_le t0 pj pi k (by omega) hi hj,
        insCF_getD_le t0 (pj - 1) pi k (by omega) hi (by omega)]
    · rcases Nat.lt_or_ge pi k with hgt | hle
      · rw [insCF_getD_gt t0 pj pi k hgt hj hi,
          insCF_getD_gt t0 (pj - 1) pi k hgt (by omega) hi]
      · rw [insCF_getD_mid t0 pj pi k (by omega) (by omega) hi,
          insCF_getD_mid t0 (pj - 1) pi k (by omega) (by omega) hi]

/-- Running the shift loop from an intermediate state: it stops at some final
hole position pjf at least pl, every original element strictly between pjf
and the start had value above the pivot, and the stop was either the wall pl
or an element not above the pivot. -/
theorem aqInsertShift_run (v : List ℚ) (pl : Nat) (vp : ℚ) :
    ∀ fuel (t0 : List Nat) (pi pj : Nat), pl ≤ pj → pj ≤ pi → pi < t0.length →
    pj + 1 ≤ fuel →
    ∃ pjf, pl ≤ pjf ∧ pjf ≤ pj ∧
      aqInsertShift v pl vp fuel (insCF t0 pj pi) pj = (insCF t0 pjf pi, pjf) ∧
      (∀ k, pjf ≤ k → k < pj → vp < v.getD (t0.getD k 0) 0) ∧
      (pjf = pl ∨ ¬ vp < v.getD (t0.getD (pjf - 1) 0) 0) := by
  intro fuel
  induction fuel with
  | zero => intro t0 pi pj h1 h2 h3 h4; omega
  | succ fuel ih =>
      intro t0 pi pj h1 h2 h3 h4
      have hval : (insCF t0 pj pi).getD (pj - 1) 0 = t0.getD (pj - 1) 0 :=
        insCF_getD_le t0 pj pi (pj - 1) (by omega) h3 h2
      simp only [aqInsertShift]
      by_cases hpj : pl < pj
      · by_cases hlt : vp < v.getD (t0.getD (pj - 1) 0) 0
        · rw [if_pos (by
            rw [Bool.and_eq_true, decide_eq_true_eq, decide_eq_true_eq, hval]
            exact ⟨hpj, hlt⟩)]
          rw [insCF_step t0 pj pi (by omega) h2 h3]
          obtain ⟨pjf, hf1, hf2, heq, hshift, hstop⟩ :=
            ih t0 pi (pj - 1) (by omega) (by omega) h3 (by omega)
          refine ⟨pjf, hf1, by omega, heq, ?_, hstop⟩
          intro k hk1 hk2
          rcases Nat.lt_or_ge k (pj - 1) with hk3 | hk3
          · exact hshift k hk1 hk3
          · have : k = pj - 1 := by omega
            rw [this]; exact hlt
        · rw [if_neg (by
            rw [Bool.and_eq_true, decide_eq_true_eq, decide_eq_true_eq, hval]
            exact fun h => hlt h.2)]
          exact ⟨pj, by omega, le_rfl, rfl, fun k hk1 hk2 => absurd hk1 (by omega),
            Or.inr hlt⟩
      · rw [if_neg (by
          rw [Bool.and_eq_true, decide_eq_true_eq, decide_eq_true_eq, hval]
          exact fun h => hpj h.1)]
        exact ⟨pj, h1, le_rfl, rfl, fun k hk1 hk2 => absurd hk1 (by omega),
          Or.inl (by omega)⟩

/-- One insertion step: inserting the element at pi into the sorted prefix
pl..pi-1 is a segment operation on pl..pi and leaves pl..pi sorted. -/
theorem insert_one_spec (v : List ℚ) (pl pi : Nat) (u : List Nat)
    (h1 : pl ≤ pi) (h2 : pi < u.length) (hs : SegSorted v u pl (pi - 1)) :
    SegOp u ((aqInsertShift v pl (v.getD (u.getD pi 0) 0) (u.length + 1) u pi).1.set
        (aqInsertShift v pl (v.getD (u.getD pi 0) 0) (u.length + 1) u pi).2
        (u.getD pi 0)) pl pi ∧
    SegSorted v ((aqInsertShift v pl (v.getD (u.getD pi 0) 0) (u.length + 1) u pi).1.set
        (aqInsertShift v pl (v.getD (u.getD pi 0) 0) (u.length + 1) u pi).2
        (u.getD pi 0)) pl pi := by
  obtain ⟨pjf, hf1, hf2, heq, hshift, hstop⟩ :=
    aqInsertShift_run v pl (v.getD (u.getD pi 0) 0) (u.length + 1) u pi pi h1 le_rfl h2
      (by omega)
  rw [insCF_self u pi] at heq
  rw [heq]
  have hflen : (insCF u pjf pi).length = u.length := insCF_length u pjf pi (by omega) h2
  -- pointwise description of the result
  have hlow : ∀ k, k < pjf →
      ((insCF u pjf pi).set pjf (u.getD pi 0)).getD k 0 = u.getD k 0 := by
    intro k hk
    rw [getD_set_ne _ _ _ _ (by omega), insCF_getD_le u pjf pi k (by omega) h2 (by omega)]
  have hat : ((insCF u pjf pi).set pjf (u.getD pi 0)).getD pjf 0 = u.getD pi 0 :=
    getD_set_eq _ _ _ (by omega)
  have hmid : ∀ k, pjf < k → k ≤ pi →
      ((insCF u pjf pi).set pjf (u.getD pi 0)).getD k 0 = u.getD (k - 1) 0 := by
    intro k hk1 hk2
    rw [getD_set_ne _ _ _ _ (by omega), insCF_getD_mid u pjf pi k hk1 hk2 h2]
  have hhigh : ∀ k, pi < k →
      ((insCF u pjf pi).set pjf (u.getD pi 0)).getD k 0 = u.getD k 0 := by
    intro k hk
    rw [getD_set_ne _ _ _ _ (by omega), insCF_getD_gt u pjf pi k hk (by omega) h2]
  constructor
  · refine ⟨by simp [hflen], ?_, ?_⟩
    · intro k hk
      rcases hk with hk | hk
      · exact hlow k (by omega)
      · exact hhigh k hk
    · -- whole-list permutation: the result is a rotation of the segment
      have hr : (insCF u pjf pi).set pjf (u.getD pi 0)
          = u.take pjf ++ u.getD pi 0 :: ((u.drop pjf).take (pi - pjf) ++ u.drop (pi + 1)) := by
        rw [List.set_eq_take_cons_drop _ (by omega)]
        congr 1
        · rw [insCF, List.take_append_eq_append_take,
            List.length_take_of_le (by omega : pjf + 1 ≤ u.length),
            show pjf - (pjf + 1) = 0 from by omega, List.take_zero, List.append_nil,
            List.take_take, show min pjf (pjf + 1) = pjf from by omega]
        · congr 1
          rw [insCF, List.drop_append_eq_append_drop,
            List.length_take_of_le (by omega : pjf + 1 ≤ u.length),
            show pjf + 1 - (pjf + 1) = 0 from by omega, List.drop_zero,
            List.drop_eq_nil_of_le (by rw [List.length_take_of_le (by omega)]),
            List.nil_append]
      have hu : u = u.take pjf ++ ((u.drop pjf).take (pi - pjf) ++ u.getD pi 0 :: u.drop (pi + 1)) := by
        conv_lhs => rw [← List.take_append_drop pjf u]
        congr 1
        conv_lhs => rw [← List.take_append_drop (pi - pjf) (u.drop pjf)]
        congr 1
        rw [List.drop_drop, show pjf + (pi - pjf) = pi from by omega,
          List.drop_eq_getElem_cons h2, getD_eq_getElem_of_lt _ _ h2]
      rw [hr]
      conv_rhs => rw [hu]
      exact List.Perm.append_left _ List.perm_middle.symm
  · -- sortedness of pl..pi
    intro a b ha hab hbpi
    have hVs : ∀ x y, pl ≤ x → x ≤ y → y ≤ pi - 1 →
        v.getD (u.getD x 0) 0 ≤ v.getD (u.getD y 0) 0 := hs
    have hstep : ∀ x, pl ≤ x → x < pjf →
        v.getD (u.getD x 0) 0 ≤ v.getD (u.getD pi 0) 0 := by
      intro x hx1 hx2
      rcases hstop with hstop | hstop
      · omega
      · have h1' : v.getD (u.getD (pjf - 1) 0) 0 ≤ v.getD (u.getD pi 0) 0 := not_lt.mp hstop
        exact le_trans (hVs x (pjf - 1) hx1 (by omega) (by omega)) h1'
    rcases Nat.lt_trichotomy a pjf with hal | hal
    · rcases Nat.lt_trichotomy b pjf with hbl | hbl
      · rw [lVal, lVal, hlow a hal, hlow b hbl]
        exact hVs a b ha hab (by omega)
      · rcases hbl with hbl | hbl
        · rw [lVal, lVal, hlow a hal, hbl, hat]
          exact hstep a ha hal
        · rw [lVal, lVal, hlow a hal, hmid b hbl hbpi]
          exact le_trans (hstep a ha hal)
            (le_of_lt (hshift (b - 1) (by omega) (by omega)))
    · rcases hal with hal | hal
      · rcases Nat.lt_trichotomy b pjf with hbl | hbl
        · omega
        · rcases hbl with hbl | hbl
          · rw [hal, ← hbl]
          · rw [lVal, lVal, hal, hat, hmid b hbl hbpi]
            exact le_of_lt (hshift (b - 1) (by omega) (by omega))
      · have hb2 : pjf < b := by omega
        rw [lVal, lVal, hmid a hal (by omega), hmid b hb2 hbpi]
        exact hVs (a - 1) (b - 1) (by omega) (by omega) (by omega)

/-- The insertion-sort loop: starting with sorted prefix pl..pi-1, it sorts
the whole segment pl..pr by a segment operation. -/
theorem aqInsertSegLoop_spec (v : List ℚ) (pl pr : Nat) :
    ∀ fuel (t : List Nat) (pi : Nat), pl ≤ pi → pi ≤ pr + 1 → pr < t.length →
    pr + 2 - pi ≤ fuel → SegSorted v t pl (pi - 1) →
    SegOp t (aqInsertSegLoop v pl pr fuel t pi) pl pr ∧
    SegSorted v (aqInsertSegLoop v pl pr fuel t pi) pl pr := by
  intro fuel
  induction fuel with
  | zero => intro t pi h1 h2 h3 h4 hs; omega
  | succ fuel ih =>
      intro t pi h1 h2 h3 h4 hs
      by_cases hpi : pi > pr
      · have heq : aqInsertSegLoop v pl pr (fuel + 1) t pi = t := by
          simp only [aqInsertSegLoop, if_pos hpi]
        rw [heq]
        have hpr : pi - 1 = pr := by omega
        rw [hpr] at hs
        exact ⟨SegOp.refl t pl pr, hs⟩
      · have heq : aqInsertSegLoop v pl pr (fuel + 1) t pi
            = aqInsertSegLoop v pl pr fuel
                ((aqInsertShift v pl (v.getD (t.getD pi 0) 0) (t.length + 1) t pi).1.set
                  (aqInsertShift v pl (v.getD (t.getD pi 0) 0) (t.length + 1) t pi).2
                  (t.getD pi 0)) (pi + 1) := by
          simp only [aqInsertSegLoop, if_neg hpi]
        rw [heq]
        obtain ⟨hop1, hsort1⟩ := insert_one_spec v pl pi t h1 (by omega) hs
        have hlen1 := hop1.1
        have hrec := ih _ (pi + 1) (by omega) (by omega) (by rw [hlen1]; omega)
          (by omega) (by simpa using hsort1)
        exact ⟨SegOp.trans (hop1.mono le_rfl (by omega)) hrec.1, hrec.2⟩

/-- The insertion-sort pass sorts the segment pl..pr by a segment operation. -/
theorem aqInsertSeg_spec (v : List ℚ) (t : List Nat) (pl pr : Nat)
    (h1 : pl ≤ pr) (h2 : pr < t.length) :
    SegOp t (aqInsertSeg v t pl pr) pl pr ∧ SegSorted v (aqInsertSeg v t pl pr) pl pr := by
  apply aqInsertSegLoop_spec v pl pr (pr - pl + 2) t (pl + 1) (by omega) (by omega) h2
    (by omega)
  intro a b ha hab hb
  have : a = b := by omega
  rw [this]

/-! ### Correctness of the Hoare partition of aquicksort -/

/-- The right scan stops at the first position after pi whose value is not
below the pivot; a sentinel position with such a value bounds the walk. -/
theorem aqScanRight_spec (v : List ℚ) (t : List Nat) (vp : ℚ) :
    ∀ fuel pi ps, pi < ps → ¬ lVal v t ps < vp → ps - pi ≤ fuel →
    ∃ pi', pi < pi' ∧ pi' ≤ ps ∧ aqScanRight v t vp fuel pi = pi' ∧
      (∀ k, pi < k → k < pi' → lVal v t k < vp) ∧ ¬ lVal v t pi' < vp := by
  intro fuel
  induction fuel with
  | zero => intro pi ps h1 h2 h3; omega
  | succ fuel ih =>
      intro pi ps h1 h2 h3
      simp only [aqScanRight]
      by_cases hlt : lVal v t (pi + 1) < vp
      · rw [if_pos hlt]
        have hne : pi + 1 ≠ ps := fun h => h2 (h ▸ hlt)
        obtain ⟨pi', ha, hb, hc, hd, he⟩ := ih (pi + 1) ps (by omega) h2 (by omega)
        refine ⟨pi', by omega, hb, hc, ?_, he⟩
        intro k hk1 hk2
        rcases Nat.lt_or_ge k (pi + 1) with h | h
        · omega
        · rcases Nat.eq_or_lt_of_le h with h | h
          · rw [← h]; exact hlt
          · exact hd k h hk2
      · rw [if_neg hlt]
        exact ⟨pi + 1, by omega, by omega, rfl, fun k hk1 hk2 => by omega, hlt⟩

/-- The left scan stops at the first position before pj whose value is not
above the pivot; a sentinel position with such a value bounds the walk. -/
theorem aqScanLeft_spec (v : List ℚ) (t : List Nat) (vp : ℚ) :
    ∀ fuel pj ps, ps < pj → ¬ vp < lVal v t ps → pj - ps ≤ fuel →
    ∃ pj', ps ≤ pj' ∧ pj' < pj ∧ aqScanLeft v t vp fuel pj = pj' ∧
      (∀ k, pj' < k → k < pj → vp < lVal v t k) ∧ ¬ vp < lVal v t pj' := by
  intro fuel
  induction fuel with
  | zero => intro pj ps h1 h2 h3; omega
  | succ fuel ih =>
      intro pj ps h1 h2 h3
      simp only [aqScanLeft]
      by_cases hlt : vp < lVal v t (pj - 1)
      · rw [if_pos hlt]
        have hne : pj - 1 ≠ ps := fun h => h2 (h ▸ hlt)
        obtain ⟨pj', ha, hb, hc, hd, he⟩ := ih (pj - 1) ps (by omega) h2 (by omega)
        refine ⟨pj', ha, by omega, hc, ?_, he⟩
        intro k hk1 hk2
        rcases Nat.lt_or_ge k (pj - 1) with h | h
        · exact hd k hk1 h
        · have : k = pj - 1 := by omega
          rw [this]; exact hlt
      · rw [if_neg hlt]
        exact ⟨pj - 1, by omega, by omega, rfl, fun k hk1 hk2 => by omega, hlt⟩

/-- The partition loop: starting from a state whose flanks pl..pi and
pj..pr1 are already on the correct sides of the pivot, it ends in a state
reached by swaps strictly inside pl..pr1-1, split at a final position piF
with everything left of piF at most the pivot and everything right of it at
least the pivot. -/
theorem aqPartitionLoop_spec (v : List ℚ) (pl pr1 : Nat) (vp : ℚ) :
    ∀ fuel (t : List Nat) (pi pj : Nat),
    pl ≤ pi → pi < pj → pj ≤ pr1 → pr1 < t.length → pj - pi ≤ fuel →
    (∀ k, pl ≤ k → k ≤ pi → lVal v t k ≤ vp) →
    (∀ k, pj ≤ k → k ≤ pr1 → vp ≤ lVal v t k) →
    ∃ tF piF, aqPartitionLoop v fuel t pi pj vp = (tF, piF) ∧
      SegOp t tF pl (pr1 - 1) ∧ pl < piF ∧ piF ≤ pr1 ∧
      (∀ k, pl ≤ k → k < piF → lVal v tF k ≤ vp) ∧
      vp ≤ lVal v tF piF ∧
      (∀ k, piF < k → k ≤ pr1 → vp ≤ lVal v tF k) := by
  intro fuel
  induction fuel with
  | zero => intro t pi pj h1 h2 h3 h4 h5 hL hR; omega
  | succ fuel ih =>
      intro t pi pj h1 h2 h3 h4 h5 hL hR
      simp only [aqPartitionLoop]
      obtain ⟨pi', hia, hib, hic, hid, hie⟩ :=
        aqScanRight_spec v t vp (t.length + 1) pi pj h2
          (fun h => absurd (hR pj le_rfl h3) (not_le.mpr h)) (by omega)
      obtain ⟨pj', hja, hjb, hjc, hjd, hje⟩ :=
        aqScanLeft_spec v t vp (t.length + 1) pj pi h2
          (fun h => absurd (hL pi h1 le_rfl) (not_le.mpr h)) (by omega)
      rw [hic, hjc]
      by_cases hstop : pi' ≥ pj'
      · rw [if_pos hstop]
        refine ⟨t, pi', rfl, SegOp.refl t pl (pr1 - 1), by omega, by omega, ?_, ?_, ?_⟩
        · intro k hk1 hk2
          rcases Nat.lt_or_ge pi k with hk3 | hk3
          · exact le_of_lt (hid k hk3 hk2)
          · exact hL k hk1 hk3
        · exact not_lt.mp hie
        · intro k hk1 hk2
          rcases Nat.lt_or_ge k pj with hk3 | hk3
          · exact le_of_lt (hjd k (by omega) hk3)
          · exact hR k hk3 hk2
      · rw [if_neg hstop]
        have hij : pi' < pj' := by omega
        have hjlen : pj' < t.length := by omega
        have hilen : pi' < t.length := by omega
        have hLnew : ∀ k, pl ≤ k → k ≤ pi' → lVal v (lSwap t pi' pj') k ≤ vp := by
          intro k hk1 hk2
          rcases Nat.eq_or_lt_of_le hk2 with hk3 | hk3
          · rw [hk3, lVal, lSwap_getD_fst t pi' pj' hilen (by omega)]
            exact not_lt.mp hje
          · rw [lVal, lSwap_getD_other t pi' pj' k (by omega) (by omega)]
            rcases Nat.lt_or_ge pi k with hk4 | hk4
            · exact le_of_lt (hid k hk4 hk3)
            · exact hL k hk1 hk4
        have hRnew : ∀ k, pj' ≤ k → k ≤ pr1 → vp ≤ lVal v (lSwap t pi' pj') k := by
          intro k hk1 hk2
          rcases Nat.eq_or_lt_of_le hk1 with hk3 | hk3
          · rw [← hk3, lVal, lSwap_getD_snd t pi' pj' hjlen]
            exact not_lt.mp hie
          · rw [lVal, lSwap_getD_other t pi' pj' k (by omega) (by omega)]
            rcases Nat.lt_or_ge k pj with hk4 | hk4
            · exact le_of_lt (hjd k hk3 hk4)
            · exact hR k hk4 hk2
        obtain ⟨tF, piF, heq, hop, hf1, hf2, hfl, hfp, hfr⟩ :=
          ih (lSwap t pi' pj') pi' pj' (by omega) hij (by omega)
            (by rw [lSwap_length]; omega) (by omega) hLnew hRnew
        refine ⟨tF, piF, heq, ?_, hf1, hf2, hfl, hfp, hfr⟩
        exact SegOp.trans (lSwap_segOp t pi' pj' pl (pr1 - 1) (by omega) (by omega)
          (by omega) (by omega) hilen hjlen) hop

/-! ### The segment stack of the introsort main loop -/

theorem inSeg_mk (a b k : Nat) : inSeg (a, b) k ↔ a ≤ k ∧ k ≤ b := Iff.rfl

theorem SegOp.lVal_outside {t r : List Nat} {lo hi : Nat} (h : SegOp t r lo hi)
    (v : List ℚ) (k : Nat) (hk : k < lo ∨ hi < k) : lVal v r k = lVal v t k := by
  rw [lVal, lVal, h.2.1 k hk]

theorem SegOp.transfer_val {t r : List Nat} {lo hi : Nat} (h : SegOp t r lo hi)
    (hhi : hi < t.length) (v : List ℚ) (P : ℚ → Prop)
    (hp : ∀ k, lo ≤ k → k ≤ hi → P (lVal v t k)) :
    ∀ k, lo ≤ k → k ≤ hi → P (lVal v r k) :=
  h.transfer hhi (fun x => P (v.getD x 0)) hp

theorem segsWF_swap (t : List Nat) (a b : Nat × Nat) (segs : List (Nat × Nat))
    (h : SegsWF t (a :: b :: segs)) : SegsWF t (b :: a :: segs) := by
  intro s hs
  apply h
  simp only [List.mem_cons] at hs ⊢
  tauto

theorem segsDisj_swap (a b : Nat × Nat) (segs : List (Nat × Nat))
    (h : SegsDisj (a :: b :: segs)) : SegsDisj (b :: a :: segs) := by
  have h1 := List.pairwise_cons.mp h
  have h2 := List.pairwise_cons.mp h1.2
  refine List.pairwise_cons.mpr ⟨?_, List.pairwise_cons.mpr ⟨?_, h2.2⟩⟩
  · intro s hs
    rcases List.mem_cons.mp hs with rfl | hs
    · exact fun k hcon => h1.1 b (List.mem_cons_self _ _) k ⟨hcon.2, hcon.1⟩
    · exact h2.1 s hs
  · intro s hs
    exact h1.1 s (List.mem_cons_of_mem _ hs)

theorem fenced_swap (v : List ℚ) (t : List Nat) (a b : Nat × Nat)
    (segs : List (Nat × Nat)) (h : Fenced v t (a :: b :: segs)) :
    Fenced v t (b :: a :: segs) := by
  intro i j h1 h2 havoid
  apply h i j h1 h2
  intro s hs
  apply havoid
  simp only [List.mem_cons] at hs ⊢
  tauto

/-- Three-way decomposition of a list around a middle block. -/
theorem list_split3 (l : List Nat) (lo m : Nat) :
    l = l.take lo ++ ((l.drop lo).take m ++ l.drop (lo + m)) := by
  conv_lhs => rw [← List.take_append_drop lo l]
  congr 1
  conv_lhs => rw [← List.take_append_drop m (l.drop lo)]
  congr 1
  rw [List.drop_drop]

/-- A length-preserving map that is untouched outside pl..pl+n-1 and permutes
the block starting at pl is a segment operation. -/
theorem segOp_of_checks (t r : List Nat) (pl n : Nat) (hlen : r.length = t.length)
    (hout : ∀ k, k < pl ∨ pl + n - 1 < k → r.getD k 0 = t.getD k 0)
    (hperm : ((r.drop pl).take n).Perm ((t.drop pl).take n))
    (hn : 1 ≤ n) (hbound : pl + n - 1 < t.length) :
    SegOp t r pl (pl + n - 1) := by
  refine ⟨hlen, hout, ?_⟩
  have htake : r.take pl = t.take pl := by
    apply List.ext_getElem (by simp [hlen])
    intro m hm hm'
    rw [List.getElem_take, List.getElem_take,
      ← getD_eq_getElem_of_lt, ← getD_eq_getElem_of_lt]
    exact hout m (Or.inl (by simp at hm; omega))
  have hdrop : r.drop (pl + n) = t.drop (pl + n) := by
    apply List.ext_getElem (by simp [hlen])
    intro m hm hm'
    rw [List.getElem_drop, List.getElem_drop,
      ← getD_eq_getElem_of_lt, ← getD_eq_getElem_of_lt]
    exact hout (pl + n + m) (Or.inr (by omega))
  rw [list_split3 r pl n, list_split3 t pl n, htake, hdrop]
  exact List.Perm.append_left _ (hperm.append (List.Perm.refl _))

/-- Sortedness of a segment follows from sortedness of adjacent pairs. -/
theorem segSorted_of_adjacent (v : List ℚ) (t : List Nat) (lo hi : Nat)
    (h : ∀ k, lo ≤ k → k < hi → lVal v t k ≤ lVal v t (k + 1)) :
    SegSorted v t lo hi := by
  have hstep : ∀ d a, lo ≤ a → a + d ≤ hi → lVal v t a ≤ lVal v t (a + d) := by
    intro d
    induction d with
    | zero => intro a _ _; exact le_rfl
    | succ d ihd =>
        intro a ha hd
        refine le_trans (ihd a ha (by omega)) ?_
        exact h (a + d) (by omega) (by omega)
  intro a b ha hab hb
  have := hstep (b - a) a ha (by omega)
  rwa [show a + (b - a) = b from by omega] at this

/-- The guarded heapsort fallback realizes the segment sort contract: either
the raw heapsort passes the decidable check, which states the contract, or
the verified insertion sort runs. -/
theorem aheapsortSeg_spec (v : List ℚ) (t : List Nat) (pl n : Nat)
    (h1 : 1 ≤ n) (h2 : pl + n - 1 < t.length) :
    SegOp t (aheapsortSeg v t pl n) pl (pl + n - 1) ∧
    SegSorted v (aheapsortSeg v t pl n) pl (pl + n - 1) := by
  by_cases hok : heapOk v t (aheapsortRaw v t pl n) pl n = true
  · have hdef : aheapsortSeg v t pl n
        = if heapOk v t (aheapsortRaw v t pl n) pl n then aheapsortRaw v t pl n
          else aqInsertSeg v t pl (pl + n - 1) := rfl
    rw [hdef, if_pos hok]
    simp only [heapOk, Bool.and_eq_true, List.all_eq_true, List.mem_range,
      beq_iff_eq, decide_eq_true_eq] at hok
    have hlen : (aheapsortRaw v t pl n).length = t.length := hok.1.1.1
    have hout : ∀ k, k < pl ∨ pl + n - 1 < k →
        (aheapsortRaw v t pl n).getD k 0 = t.getD k 0 := by
      intro k hk
      by_cases hklen : k < t.length
      · have h5 := hok.1.1.2 k hklen
        rw [if_pos (show (decide (k < pl) || decide (pl + n ≤ k)) = true by
          simp only [Bool.or_eq_true, decide_eq_true_eq]; omega)] at h5
        exact beq_iff_eq.mp h5
      · rw [List.getD_eq_default _ _ (by rw [hlen]; omega),
          List.getD_eq_default _ _ (by omega)]
    have hperm := List.isPerm_iff.mp hok.1.2
    refine ⟨segOp_of_checks t _ pl n hlen hout hperm h1 h2, ?_⟩
    apply segSorted_of_adjacent
    intro k hk1 hk2
    have h6 := hok.2 (k - pl) (by omega)
    rwa [show pl + (k - pl) = k from by omega] at h6
  · have hdef : aheapsortSeg v t pl n
        = if heapOk v t (aheapsortRaw v t pl n) pl n then aheapsortRaw v t pl n
          else aqInsertSeg v t pl (pl + n - 1) := rfl
    rw [hdef, if_neg hok]
    exact aqInsertSeg_spec v t pl (pl + n - 1) (by omega) h2

/-- One conditional swap of the median-of-three phase: positions Y < X end
ordered, other positions keep their values, and the two values are either
kept or exchanged. -/
theorem cswap_spec (v : List ℚ) (t : List Nat) (X Y : Nat) (hX : X < t.length)
    (hne : Y < X) :
    SegOp t (if lVal v t X < lVal v t Y then lSwap t X Y else t) Y X ∧
    lVal v (if lVal v t X < lVal v t Y then lSwap t X Y else t) Y ≤
      lVal v (if lVal v t X < lVal v t Y then lSwap t X Y else t) X ∧
    (∀ k, k ≠ X → k ≠ Y →
      lVal v (if lVal v t X < lVal v t Y then lSwap t X Y else t) k = lVal v t k) ∧
    ((lVal v (if lVal v t X < lVal v t Y then lSwap t X Y else t) X = lVal v t X ∧
      lVal v (if lVal v t X < lVal v t Y then lSwap t X Y else t) Y = lVal v t Y) ∨
     (lVal v (if lVal v t X < lVal v t Y then lSwap t X Y else t) X = lVal v t Y ∧
      lVal v (if lVal v t X < lVal v t Y then lSwap t X Y else t) Y = lVal v t X)) := by
  have hY : Y < t.length := by omega
  by_cases hc : lVal v t X < lVal v t Y
  · rw [if_pos hc]
    have hvx : lVal v (lSwap t X Y) X = lVal v t Y := by
      rw [lVal, lVal, lSwap_getD_fst t X Y hX (by omega)]
    have hvy : lVal v (lSwap t X Y) Y = lVal v t X := by
      rw [lVal, lVal, lSwap_getD_snd t X Y hY]
    refine ⟨lSwap_segOp t X Y Y X (by omega) le_rfl le_rfl (by omega) hX hY, ?_, ?_, ?_⟩
    · rw [hvx, hvy]; exact le_of_lt hc
    · intro k hk1 hk2
      rw [lVal, lVal, lSwap_getD_other t X Y k hk1 hk2]
    · exact Or.inr ⟨hvx, hvy⟩
  · rw [if_neg hc]
    exact ⟨SegOp.refl t Y X, not_lt.mp hc, fun k _ _ => rfl, Or.inl ⟨rfl, rfl⟩⟩

/-- Resolving the active segment: after a segment operation that sorts it,
the fences of the remaining pending segments still hold. -/
theorem resolve_seg (v : List ℚ) (t t' : List Nat) (lo hi : Nat)
    (segs : List (Nat × Nat))
    (hwf : SegsWF t ((lo, hi) :: segs)) (hdisj : SegsDisj ((lo, hi) :: segs))
    (hfen : Fenced v t ((lo, hi) :: segs))
    (hop : SegOp t t' lo hi) (hsort : SegSorted v t' lo hi) :
    SegsWF t' segs ∧ SegsDisj segs ∧ Fenced v t' segs := by
  have hlen := hop.1
  have hhd := hwf (lo, hi) (List.mem_cons_self _ _)
  have hhd1 : lo ≤ hi := hhd.1
  have hhd2 : hi < t.length := hhd.2
  have hdhead : ∀ s ∈ segs, ∀ k, ¬(inSeg (lo, hi) k ∧ inSeg s k) :=
    (List.pairwise_cons.mp hdisj).1
  refine ⟨?_, (List.pairwise_cons.mp hdisj).2, ?_⟩
  · intro s hs
    have h7 := hwf s (List.mem_cons_of_mem _ hs)
    exact ⟨h7.1, by omega⟩
  · intro i j hij hjlen havoid
    by_cases hiIn : lo ≤ i ∧ i ≤ hi
    · by_cases hjIn : lo ≤ j ∧ j ≤ hi
      · exact hsort i j hiIn.1 (le_of_lt hij) hjIn.2
      · have hjgt : hi < j := by omega
        have hjval : lVal v t' j = lVal v t j := hop.lVal_outside v j (Or.inr hjgt)
        have hA : ∀ k, lo ≤ k → k ≤ hi → lVal v t k ≤ lVal v t j := by
          intro k hk1 hk2
          apply hfen k j (by omega) (by omega)
          intro s hs
          rcases List.mem_cons.mp hs with rfl | hs
          · rw [inSeg_mk, inSeg_mk]
            omega
          · intro hcon
            exact hdhead s hs k ⟨⟨hk1, hk2⟩, hcon.1⟩
        rw [hjval]
        exact hop.transfer_val hhd2 v (fun q => q ≤ lVal v t j) hA i hiIn.1 hiIn.2
    · by_cases hjIn : lo ≤ j ∧ j ≤ hi
      · have hilt : i < lo := by omega
        have hival : lVal v t' i = lVal v t i := hop.lVal_outside v i (Or.inl hilt)
        have hB : ∀ k, lo ≤ k → k ≤ hi → lVal v t i ≤ lVal v t k := by
          intro k hk1 hk2
          apply hfen i k (by omega) (by omega)
          intro s hs
          rcases List.mem_cons.mp hs with rfl | hs
          · rw [inSeg_mk, inSeg_mk]
            omega
          · intro hcon
            exact hdhead s hs k ⟨⟨hk1, hk2⟩, hcon.2⟩
        rw [hival]
        exact hop.transfer_val hhd2 v (fun q => lVal v t i ≤ q) hB j hjIn.1 hjIn.2
      · rw [hop.lVal_outside v i (by omega), hop.lVal_outside v j (by omega)]
        apply hfen i j hij (by omega)
        intro s hs
        rcases List.mem_cons.mp hs with rfl | hs
        · rw [inSeg_mk, inSeg_mk]
          omega
        · exact havoid s hs

/-- Splitting the active segment at a partition point: the two halves join
the pending segments with all fences intact. -/
theorem split_seg (v : List ℚ) (t t' : List Nat) (pl pr piF : Nat)
    (segs : List (Nat × Nat))
    (hwf : SegsWF t ((pl, pr) :: segs)) (hdisj : SegsDisj ((pl, pr) :: segs))
    (hfen : Fenced v t ((pl, pr) :: segs))
    (hop : SegOp t t' pl pr) (hpi1 : pl < piF) (hpi2 : piF < pr)
    (hleft : ∀ k, pl ≤ k → k < piF → lVal v t' k ≤ lVal v t' piF)
    (hright : ∀ k, piF < k → k ≤ pr → lVal v t' piF ≤ lVal v t' k) :
    SegsWF t' ((pl, piF - 1) :: (piF + 1, pr) :: segs) ∧
    SegsDisj ((pl, piF - 1) :: (piF + 1, pr) :: segs) ∧
    Fenced v t' ((pl, piF - 1) :: (piF + 1, pr) :: segs) := by
  have hlen := hop.1
  have hhd := hwf (pl, pr) (List.mem_cons_self _ _)
  have hhd1 : pl ≤ pr := hhd.1
  have hhd2 : pr < t.length := hhd.2
  have hpair := List.pairwise_cons.mp hdisj
  have hdhead : ∀ s ∈ segs, ∀ k, ¬(inSeg (pl, pr) k ∧ inSeg s k) := hpair.1
  refine ⟨?_, ?_, ?_⟩
  · intro s hs
    rcases List.mem_cons.mp hs with rfl | hs
    · exact ⟨by omega, by omega⟩
    · rcases List.mem_cons.mp hs with rfl | hs
      · exact ⟨by omega, by omega⟩
      · have h7 := hwf s (List.mem_cons_of_mem _ hs)
        exact ⟨h7.1, by omega⟩
  · refine List.pairwise_cons.mpr ⟨?_, List.pairwise_cons.mpr ⟨?_, hpair.2⟩⟩
    · intro s hs k
      rcases List.mem_cons.mp hs with rfl | hs
      · rw [inSeg_mk, inSeg_mk]
        omega
      · intro hcon
        have hc1 : pl ≤ k := hcon.1.1
        have hc2 : k ≤ piF - 1 := hcon.1.2
        exact hdhead s hs k ⟨⟨by omega, by omega⟩, hcon.2⟩
    · intro s hs k
      intro hcon
      have hc1 : piF + 1 ≤ k := hcon.1.1
      have hc2 : k ≤ pr := hcon.1.2
      exact hdhead s hs k ⟨⟨by omega, by omega⟩, hcon.2⟩
  · intro i j hij hjlen havoid
    have hAvoidA := havoid (pl, piF - 1) (List.mem_cons_self _ _)
    have hAvoidB := havoid (piF + 1, pr)
      (List.mem_cons_of_mem _ (List.mem_cons_self _ _))
    rw [inSeg_mk, inSeg_mk] at hAvoidA hAvoidB
    by_cases hiIn : pl ≤ i ∧ i ≤ pr
    · by_cases hjIn : pl ≤ j ∧ j ≤ pr
      · rcases Nat.lt_trichotomy i piF with hi3 | hi3 | hi3
        · rcases Nat.lt_trichotomy j piF with hj3 | hj3 | hj3
          · exact absurd ⟨⟨by omega, by omega⟩, ⟨by omega, by omega⟩⟩ hAvoidA
          · rw [hj3]
            exact hleft i hiIn.1 hi3
          · exact le_trans (hleft i hiIn.1 hi3) (hright j hj3 hjIn.2)
        · rw [hi3]
          exact hright j (by omega) hjIn.2
        · exact absurd ⟨⟨by omega, by omega⟩, ⟨by omega, by omega⟩⟩ hAvoidB
      · have hjgt : pr < j := by omega
        have hjval : lVal v t' j = lVal v t j := hop.lVal_outside v j (Or.inr hjgt)
        have hA : ∀ k, pl ≤ k → k ≤ pr → lVal v t k ≤ lVal v t j := by
          intro k hk1 hk2
          apply hfen k j (by omega) (by omega)
          intro s hs
          rcases List.mem_cons.mp hs with rfl | hs
          · rw [inSeg_mk, inSeg_mk]
            omega
          · intro hcon
            exact hdhead s hs k ⟨⟨hk1, hk2⟩, hcon.1⟩
        rw [hjval]
        exact hop.transfer_val hhd2 v (fun q => q ≤ lVal v t j) hA i hiIn.1 hiIn.2
    · by_cases hjIn : pl ≤ j ∧ j ≤ pr
      · have hilt : i < pl := by omega
        have hival : lVal v t' i = lVal v t i := hop.lVal_outside v i (Or.inl hilt)
        have hB : ∀ k, pl ≤ k → k ≤ pr → lVal v t i ≤ lVal v t k := by
          intro k hk1 hk2
          apply hfen i k (by omega) (by omega)
          intro s hs
          rcases List.mem_cons.mp hs with rfl | hs
          · rw [inSeg_mk, inSeg_mk]
            omega
          · intro hcon
            exact hdhead s hs k ⟨⟨hk1, hk2⟩, hcon.2⟩
        rw [hival]
        exact hop.transfer_val hhd2 v (fun q => lVal v t i ≤ q) hB j hjIn.1 hjIn.2
      · rw [hop.lVal_outside v i (by omega), hop.lVal_outside v j (by omega)]
        apply hfen i j hij (by omega)
        intro s hs
        rcases List.mem_cons.mp hs with rfl | hs
        · rw [inSeg_mk, inSeg_mk]
          omega
        · exact havoid s (List.mem_cons_of_mem _ (List.mem_cons_of_mem _ hs))

/-! ### The introsort main loop -/

/-- The median-of-three swaps are a segment operation that orders the values
at pl, pm, pr. -/
theorem med3_spec (v : List ℚ) (t : List Nat) (pl pm pr : Nat)
    (h1 : pl < pm) (h2 : pm < pr) (h3 : pr < t.length) :
    SegOp t (med3 v t pl pm pr) pl pr ∧
    lVal v (med3 v t pl pm pr) pl ≤ lVal v (med3 v t pl pm pr) pm ∧
    lVal v (med3 v t pl pm pr) pm ≤ lVal v (med3 v t pl pm pr) pr := by
  simp only [med3]
  obtain ⟨haop, hale, haoth, havals⟩ := cswap_spec v t pm pl (by omega) h1
  generalize hA : (if lVal v t pm < lVal v t pl then lSwap t pm pl else t) = t1
    at haop hale haoth havals ⊢
  have hlen1 : t1.length = t.length := haop.1
  obtain ⟨hbop, hble, hboth, hbvals⟩ := cswap_spec v t1 pr pm (by omega) h2
  generalize hB : (if lVal v t1 pr < lVal v t1 pm then lSwap t1 pr pm else t1) = t2
    at hbop hble hboth hbvals ⊢
  have hlen2 : t2.length = t1.length := hbop.1
  obtain ⟨hcop, hcle, hcoth, hcvals⟩ := cswap_spec v t2 pm pl (by omega) h1
  generalize hC : (if lVal v t2 pm < lVal v t2 pl then lSwap t2 pm pl else t2) = t3
    at hcop hcle hcoth hcvals ⊢
  refine ⟨?_, hcle, ?_⟩
  · exact ((haop.mono le_rfl (by omega)).trans (hbop.mono (by omega) le_rfl)).trans
      (hcop.mono le_rfl (by omega))
  · have h3pr : lVal v t3 pr = lVal v t2 pr := hcoth pr (by omega) (by omega)
    rcases hcvals with ⟨hx, hy⟩ | ⟨hx, hy⟩
    · rw [h3pr, hx]
      exact hble
    · rw [h3pr, hx]
      have h2pl : lVal v t2 pl = lVal v t1 pl := hboth pl (by omega) (by omega)
      rw [h2pl]
      rcases hbvals with ⟨hbx, hby⟩ | ⟨hbx, hby⟩
      · rw [hbx]
        have hmr : lVal v t1 pm ≤ lVal v t1 pr := by
          rw [← hby, ← hbx]
          exact hble
        exact le_trans hale hmr
      · rw [hbx]
        exact hale

theorem aqMain_heap_nil (v : List ℚ) (fuel : Nat) (t : List Nat) (pl pr : Nat)
    (depth : Int) (hbig : pr - pl > 15) (hdep : depth < 0) :
    aqMain v (fuel + 1) t [] pl pr depth = aheapsortSeg v t pl (pr - pl + 1) := by
  simp only [aqMain]
  rw [if_pos hbig, if_pos hdep]

theorem aqMain_heap_cons (v : List ℚ) (fuel : Nat) (t : List Nat)
    (pl' pr' : Nat) (st : List (Nat × Nat)) (pl pr : Nat) (depth : Int)
    (hbig : pr - pl > 15) (hdep : depth < 0) :
    aqMain v (fuel + 1) t ((pl', pr') :: st) pl pr depth
      = aqMain v fuel (aheapsortSeg v t pl (pr - pl + 1)) st pl' pr' (depth - 1) := by
  simp only [aqMain]
  rw [if_pos hbig, if_pos hdep]

theorem aqMain_ins_nil (v : List ℚ) (fuel : Nat) (t : List Nat) (pl pr : Nat)
    (depth : Int) (hbig : ¬ pr - pl > 15) :
    aqMain v (fuel + 1) t [] pl pr depth = aqInsertSeg v t pl pr := by
  simp only [aqMain]
  rw [if_neg hbig]

theorem aqMain_ins_cons (v : List ℚ) (fuel : Nat) (t : List Nat)
    (pl' pr' : Nat) (st : List (Nat × Nat)) (pl pr : Nat) (depth : Int)
    (hbig : ¬ pr - pl > 15) :
    aqMain v (fuel + 1) t ((pl', pr') :: st) pl pr depth
      = aqMain v fuel (aqInsertSeg v t pl pr) st pl' pr' depth := by
  simp only [aqMain]
  rw [if_neg hbig]

/-- One partition turn: the main loop takes a step to a state reached by a
segment operation on pl..pr, split at a pivot position piF whose value fences
the two halves. -/
theorem aqPartStep_spec (v : List ℚ) (fuel : Nat) (t : List Nat)
    (stack : List (Nat × Nat)) (pl pr : Nat) (depth : Int)
    (hbig : pr - pl > 15) (hdep : ¬ depth < 0) (hpr : pr < t.length) :
    ∃ t5 piF,
      aqMain v (fuel + 1) t stack pl pr depth =
        (if piF - pl < pr - piF
         then aqMain v fuel t5 ((piF + 1, pr) :: stack) pl (piF - 1) (depth - 1)
         else aqMain v fuel t5 ((pl, piF - 1) :: stack) (piF + 1) pr (depth - 1)) ∧
      SegOp t t5 pl pr ∧ pl < piF ∧ piF < pr ∧
      (∀ k, pl ≤ k → k < piF → lVal v t5 k ≤ lVal v t5 piF) ∧
      (∀ k, piF < k → k ≤ pr → lVal v t5 piF ≤ lVal v t5 k) := by
  refine ⟨(aqPartStep v t pl pr).1, (aqPartStep v t pl pr).2, ?_, ?_⟩
  · simp only [aqMain]
    rw [if_pos hbig, if_neg hdep]
    rfl
  · simp only [aqPartStep]
    generalize hpm : pl + (pr - pl) / 2 = pm
    have hmed := med3_spec v t pl pm pr (by omega) (by omega) hpr
    generalize hT3 : med3 v t pl pm pr = t3 at hmed ⊢
    obtain ⟨hmop, hm1, hm2⟩ := hmed
    have hlen3 : t3.length = t.length := hmop.1
    generalize hvp : lVal v t3 pm = vp at hm1 hm2 ⊢
    have hop4 : SegOp t3 (lSwap t3 pm (pr - 1)) pl pr :=
      lSwap_segOp t3 pm (pr - 1) pl pr (by omega) (by omega) (by omega) (by omega)
        (by omega) (by omega)
    have hv4pl : lVal v (lSwap t3 pm (pr - 1)) pl = lVal v t3 pl := by
      rw [lVal, lSwap_getD_other t3 pm (pr - 1) pl (by omega) (by omega)]
      rfl
    have hv4pr : lVal v (lSwap t3 pm (pr - 1)) pr = lVal v t3 pr := by
      rw [lVal, lSwap_getD_other t3 pm (pr - 1) pr (by omega) (by omega)]
      rfl
    have hv4p1 : lVal v (lSwap t3 pm (pr - 1)) (pr - 1) = vp := by
      rw [lVal, lSwap_getD_snd t3 pm (pr - 1) (by omega)]
      exact hvp
    generalize hT4 : lSwap t3 pm (pr - 1) = t4 at hop4 hv4pl hv4pr hv4p1 ⊢
    have hlen4 : t4.length = t3.length := hop4.1
    obtain ⟨tF, piF, heqF, hopF, hf1, hf2, hfl, hfp, hfr⟩ :=
      aqPartitionLoop_spec v pl (pr - 1) vp (t4.length + 1) t4 pl (pr - 1)
        le_rfl (by omega) le_rfl (by omega) (by omega)
        (by
          intro k hk1 hk2
          have hk : k = pl := by omega
          rw [hk, hv4pl]
          exact hm1)
        (by
          intro k hk1 hk2
          have hk : k = pr - 1 := by omega
          rw [hk, hv4p1])
    simp only [heqF]
    have hlenF : tF.length = t4.length := hopF.1
    have hvFp1 : lVal v tF (pr - 1) = vp := by
      rw [hopF.lVal_outside v (pr - 1) (Or.inr (by omega))]
      exact hv4p1
    have hvFpr : lVal v tF pr = lVal v t4 pr := hopF.lVal_outside v pr (Or.inr (by omega))
    have hv5piF : lVal v (lSwap tF piF (pr - 1)) piF = vp := by
      by_cases hpe : piF = pr - 1
      · rw [hpe, lVal, lSwap_getD_snd tF (pr - 1) (pr - 1) (by omega)]
        exact hvFp1
      · rw [lVal, lSwap_getD_fst tF piF (pr - 1) (by omega) hpe]
        exact hvFp1
    refine ⟨?_, hf1, by omega, ?_, ?_⟩
    · exact ((hmop.trans hop4).trans (hopF.mono le_rfl (by omega))).trans
        (lSwap_segOp tF piF (pr - 1) pl pr (by omega) (by omega) (by omega)
          (by omega) (by omega) (by omega))
    · intro k hk1 hk2
      rw [hv5piF, lVal, lSwap_getD_other tF piF (pr - 1) k (by omega) (by omega)]
      exact hfl k hk1 hk2
    · intro k hk1 hk2
      rw [hv5piF]
      by_cases hk3 : k = pr - 1
      · rw [hk3, lVal, lSwap_getD_snd tF piF (pr - 1) (by omega)]
        exact hfp
      · by_cases hk4 : k = pr
        · rw [hk4, lVal, lSwap_getD_other tF piF (pr - 1) pr (by omega) (by omega)]
          calc vp ≤ lVal v t3 pr := hm2
            _ = lVal v t4 pr := hv4pr.symm
            _ = lVal v tF pr := hvFpr.symm
            _ = v.getD (tF.getD pr 0) 0 := rfl
        · rw [lVal, lSwap_getD_other tF piF (pr - 1) k (by omega) (by omega)]
          exact hfr k hk1 (by omega)

/-- The introsort main loop sorts the whole array once all pending segments
are processed: the result is a permutation of the input, has its length, and
is globally sorted by value, provided the pending segments are disjoint,
in bounds, fenced and the fuel covers the measure. -/
theorem aqMain_spec (v : List ℚ) :
    ∀ fuel (t : List Nat) (stack : List (Nat × Nat)) (pl pr : Nat) (depth : Int),
    segMeasure ((pl, pr) :: stack) ≤ fuel →
    SegsWF t ((pl, pr) :: stack) →
    SegsDisj ((pl, pr) :: stack) →
    Fenced v t ((pl, pr) :: stack) →
    (aqMain v fuel t stack pl pr depth).length = t.length ∧
    (aqMain v fuel t stack pl pr depth).Perm t ∧
    Fenced v (aqMain v fuel t stack pl pr depth) [] := by
  intro fuel
  induction fuel with
  | zero =>
      intro t stack pl pr depth hm hwf hdisj hfen
      exfalso
      simp only [segMeasure, List.map_cons, List.sum_cons, List.length_cons] at hm
      omega
  | succ fuel ih =>
      intro t stack pl pr depth hm hwf hdisj hfen
      have hhd := hwf (pl, pr) (List.mem_cons_self _ _)
      have hhd1 : pl ≤ pr := hhd.1
      have hhd2 : pr < t.length := hhd.2
      by_cases hbig : pr - pl > 15
      · by_cases hdep : depth < 0
        · -- heapsort fallback on the active segment
          have hspec := aheapsortSeg_spec v t pl (pr - pl + 1) (by omega)
            (by rw [show pl + (pr - pl + 1) - 1 = pr from by omega]; exact hhd2)
          rw [show pl + (pr - pl + 1) - 1 = pr from by omega] at hspec
          obtain ⟨hop, hsort⟩ := hspec
          obtain ⟨hwf', hdisj', hfen'⟩ :=
            resolve_seg v t _ pl pr stack hwf hdisj hfen hop hsort
          rcases stack with _ | ⟨⟨pl', pr'⟩, st⟩
          · rw [aqMain_heap_nil v fuel t pl pr depth hbig hdep]
            exact ⟨hop.1, hop.2.2, hfen'⟩
          · rw [aqMain_heap_cons v fuel t pl' pr' st pl pr depth hbig hdep]
            have hmeas : segMeasure ((pl', pr') :: st) ≤ fuel := by
              simp only [segMeasure, List.map_cons, List.sum_cons,
                List.length_cons] at hm ⊢
              omega
            obtain ⟨hl2, hp2, hf2⟩ := ih _ st pl' pr' (depth - 1) hmeas hwf' hdisj' hfen'
            exact ⟨hl2.trans hop.1, hp2.trans hop.2.2, hf2⟩
        · -- partition turn
          obtain ⟨t5, piF, heqMain, hop5, hpi1, hpi2, hl5, hr5⟩ :=
            aqPartStep_spec v fuel t stack pl pr depth hbig hdep hhd2
          obtain ⟨hwf', hdisj', hfen'⟩ :=
            split_seg v t t5 pl pr piF stack hwf hdisj hfen hop5 hpi1 hpi2 hl5 hr5
          rw [heqMain]
          have hmeasA : segMeasure ((pl, piF - 1) :: (piF + 1, pr) :: stack) ≤ fuel := by
            simp only [segMeasure, List.map_cons, List.sum_cons,
              List.length_cons] at hm ⊢
            omega
          by_cases hside : piF - pl < pr - piF
          · rw [if_pos hside]
            obtain ⟨hl2, hp2, hf2⟩ := ih t5 ((piF + 1, pr) :: stack) pl (piF - 1)
              (depth - 1) hmeasA hwf' hdisj' hfen'
            exact ⟨hl2.trans hop5.1, hp2.trans hop5.2.2, hf2⟩
          · rw [if_neg hside]
            have hmeasB : segMeasure ((piF + 1, pr) :: (pl, piF - 1) :: stack) ≤ fuel := by
              simp only [segMeasure, List.map_cons, List.sum_cons,
                List.length_cons] at hm ⊢
              omega
            obtain ⟨hl2, hp2, hf2⟩ := ih t5 ((pl, piF - 1) :: stack) (piF + 1) pr
              (depth - 1) hmeasB (segsWF_swap t5 _ _ stack hwf')
              (segsDisj_swap _ _ stack hdisj') (fenced_swap v t5 _ _ stack hfen')
            exact ⟨hl2.trans hop5.1, hp2.trans hop5.2.2, hf2⟩
      · -- short segment: insertion sort
        obtain ⟨hop, hsort⟩ := aqInsertSeg_spec v t pl pr hhd1 hhd2
        obtain ⟨hwf', hdisj', hfen'⟩ :=
          resolve_seg v t _ pl pr stack hwf hdisj hfen hop hsort
        rcases stack with _ | ⟨⟨pl', pr'⟩, st⟩
        · rw [aqMain_ins_nil v fuel t pl pr depth hbig]
          exact ⟨hop.1, hop.2.2, hfen'⟩
        · rw [aqMain_ins_cons v fuel t pl' pr' st pl pr depth hbig]
          have hmeas : segMeasure ((pl', pr') :: st) ≤ fuel := by
            simp only [segMeasure, List.map_cons, List.sum_cons,
              List.length_cons] at hm ⊢
            omega
          obtain ⟨hl2, hp2, hf2⟩ := ih _ st pl' pr' depth hmeas hwf' hdisj' hfen'
          exact ⟨hl2.trans hop.1, hp2.trans hop.2.2, hf2⟩

/-! ### Introsort assembled: numpy argsort is sorted at every size -/

/-- The introsort entry point on arrays longer than 16: the resulting index
array is a permutation of the positions, sorted ascending by value. -/
theorem npIntrosortArgsort_spec (vals : List ℚ) (h : 16 < vals.length) :
    (npIntrosortArgsort vals).length = vals.length ∧
    (npIntrosortArgsort vals).Perm (List.range vals.length) ∧
    (∀ i j, i < j → j < vals.length →
      lVal vals (npIntrosortArgsort vals) i ≤ lVal vals (npIntrosortArgsort vals) j) := by
  have hmeas : segMeasure [(0, vals.length - 1)] ≤ 4 * vals.length + 4 := by
    simp only [segMeasure, List.map_cons, List.map_nil, List.sum_cons, List.sum_nil,
      List.length_cons, List.length_nil]
    omega
  have hwf : SegsWF (List.range vals.length) [(0, vals.length - 1)] := by
    intro s hs
    rcases List.mem_cons.mp hs with rfl | hs
    · refine ⟨Nat.zero_le _, ?_⟩
      show vals.length - 1 < (List.range vals.length).length
      rw [List.length_range]
      omega
    · exact absurd hs (List.not_mem_nil s)
  have hdisj : SegsDisj [(0, vals.length - 1)] :=
    List.pairwise_cons.mpr ⟨fun s hs => absurd hs (List.not_mem_nil s), List.Pairwise.nil⟩
  have hfen : Fenced vals (List.range vals.length) [(0, vals.length - 1)] := by
    intro i j hij hjlen havoid
    rw [List.length_range] at hjlen
    exact absurd ⟨(inSeg_mk 0 (vals.length - 1) i).mpr ⟨by omega, by omega⟩,
      (inSeg_mk 0 (vals.length - 1) j).mpr ⟨by omega, by omega⟩⟩
      (havoid (0, vals.length - 1) (List.mem_cons_self _ _))
  obtain ⟨hl, hp, hf⟩ := aqMain_spec vals (4 * vals.length + 4) (List.range vals.length)
    [] 0 (vals.length - 1) (2 * (Nat.log2 vals.length : Int)) hmeas hwf hdisj hfen
  refine ⟨?_, ?_, ?_⟩
  · show (npIntrosortArgsort vals).length = vals.length
    simp only [npIntrosortArgsort]
    rw [hl, List.length_range]
  · show (npIntrosortArgsort vals).Perm (List.range vals.length)
    simp only [npIntrosortArgsort]
    exact hp
  · intro i j hij hjn
    simp only [npIntrosortArgsort]
    refine hf i j hij ?_ (fun s hs => absurd hs (List.not_mem_nil s))
    rw [hl, List.length_range]
    exact hjn

/-- numpy argsort with kind quicksort returns a permutation of the positions
at every input size. -/
theorem npAargsortQuicksort_perm (vals : List ℚ) :
    (npAargsortQuicksort vals).Perm (List.range vals.length) := by
  unfold npAargsortQuicksort
  by_cases h : vals.length ≤ 16
  · rw [if_pos h]
    exact npInsertionArgsort_perm vals
  · rw [if_neg h]
    exact (npIntrosortArgsort_spec vals (by omega)).2.1

/-- numpy argsort with kind quicksort is ascending by value at every input
size. -/
theorem npAargsortQuicksort_sorted (vals : List ℚ) :
    (npAargsortQuicksort vals).Pairwise (fun i j => vals.getD i 0 ≤ vals.getD j 0) := by
  unfold npAargsortQuicksort
  by_cases h : vals.length ≤ 16
  · rw [if_pos h]
    refine (npInsertionArgsort_sorted vals).imp ?_
    intro a b hab
    rcases hab with h1 | ⟨h1, _⟩
    · exact le_of_lt h1
    · exact le_of_eq h1
  · rw [if_neg h]
    obtain ⟨hl, hp, hsort⟩ := npIntrosortArgsort_spec vals (by omega)
    rw [List.pairwise_iff_get]
    intro i j hij
    have hig : (npIntrosortArgsort vals).get i = (npIntrosortArgsort vals).getD i.1 0 := by
      rw [List.get_eq_getElem, ← getD_eq_getElem_of_lt _ _ i.2]
    have hjg : (npIntrosortArgsort vals).get j = (npIntrosortArgsort vals).getD j.1 0 := by
      rw [List.get_eq_getElem, ← getD_eq_getElem_of_lt _ _ j.2]
    have hres := hsort i.1 j.1 hij (by rw [← hl]; exact j.2)
    rw [hig, hjg]
    exact hres

/-- pandas nargsort descending returns a permutation of the positions at
every input size. -/
theorem nargsortDesc_perm_all (vals : List ℚ) :
    (nargsortDesc vals).Perm (List.range vals.length) := by
  unfold nargsortDesc
  have hperm := npAargsortQuicksort_perm vals.reverse
  rw [List.length_reverse] at hperm
  refine (List.reverse_perm _).trans ?_
  refine (hperm.map (fun p => vals.length - 1 - p)).trans ?_
  rw [map_sub_one_range]
  exact List.reverse_perm _

/-- pandas nargsort descending orders the values non-increasingly at every
input size. -/
theorem nargsortDesc_antitone (vals : List ℚ) :
    (nargsortDesc vals).Pairwise (fun i j => vals.getD j 0 ≤ vals.getD i 0) := by
  unfold nargsortDesc
  have hperm := npAargsortQuicksort_perm vals.reverse
  rw [List.length_reverse] at hperm
  have hs := npAargsortQuicksort_sorted vals.reverse
  rw [List.pairwise_reverse, List.pairwise_map]
  refine hs.imp_of_mem ?_
  intro a b ha hb hab
  have han : a < vals.length := by
    have := List.mem_range.mp (hperm.mem_iff.mp ha)
    omega
  have hbn : b < vals.length := by
    have := List.mem_range.mp (hperm.mem_iff.mp hb)
    omega
  have hva : vals.reverse.getD a 0 = vals.getD (vals.length - 1 - a) 0 := by
    rw [List.getD_eq_getElem _ _ (by simpa using han),
      List.getD_eq_getElem _ _ (by omega : vals.length - 1 - a < vals.length),
      List.getElem_reverse]
  have hvb : vals.reverse.getD b 0 = vals.getD (vals.length - 1 - b) 0 := by
    rw [List.getD_eq_getElem _ _ (by simpa using hbn),
      List.getD_eq_getElem _ _ (by omega : vals.length - 1 - b < vals.length),
      List.getElem_reverse]
  rw [← hva, ← hvb]
  exact hab

/-- Taking every position of a list in order reproduces the list. -/
theorem range_filterMap_get (l : List ThreadRecord) :
    (List.range l.length).filterMap (fun i => l.get? i) = l := by
  induction l with
  | nil => simp
  | cons x xs ih =>
      rw [List.length_cons, List.range_succ_eq_map]
      have h0 : List.filterMap (fun i => (x :: xs).get? i)
            (0 :: List.map Nat.succ (List.range xs.length))
          = x :: List.filterMap (fun i => (x :: xs).get? i)
              (List.map Nat.succ (List.range xs.length)) := rfl
      rw [h0, List.filterMap_map]
      have h1 : ((fun i => (x :: xs).get? i) ∘ Nat.succ) = fun i => xs.get? i := rfl
      rw [h1, ih]

/-- The report sort returns a permutation of the rows at every input size. -/
theorem sortValuesDesc_perm (rows : List ThreadRecord) :
    (sortValuesDesc rows).Perm rows := by
  unfold sortValuesDesc
  have hlen : (rows.map ThreadRecord.dailyViews).length = rows.length := List.length_map _ _
  have hperm := nargsortDesc_perm_all (rows.map ThreadRecord.dailyViews)
  rw [hlen] at hperm
  have h2 := hperm.filterMap (fun i => rows.get? i)
  rw [range_filterMap_get rows] at h2
  exact h2

/-- The report sort is non-increasing by dailyViews at every input size. -/
theorem sortValuesDesc_antitone (rows : List ThreadRecord) :
    (sortValuesDesc rows).Pairwise (fun a b => b.dailyViews ≤ a.dailyViews) := by
  have hsorted := nargsortDesc_antitone (rows.map ThreadRecord.dailyViews)
  show ((nargsortDesc (rows.map ThreadRecord.dailyViews)).filterMap
      (fun i => rows.get? i)).Pairwise (fun a b => b.dailyViews ≤ a.dailyViews)
  rw [List.pairwise_filterMap]
  refine hsorted.imp_of_mem ?_
  intro i j hi hj hij x hx y hy
  have hxv : (rows.map ThreadRecord.dailyViews).getD i 0 = x.dailyViews := by
    rw [List.getD_eq_getElem?_getD, List.getElem?_map]
    simp only [Option.mem_def] at hx
    rw [← List.get?_eq_getElem?, hx]
    rfl
  have hyv : (rows.map ThreadRecord.dailyViews).getD j 0 = y.dailyViews := by
    rw [List.getD_eq_getElem?_getD, List.getElem?_map]
    simp only [Option.mem_def] at hy
    rw [← List.get?_eq_getElem?, hy]
    rfl
  rw [← hxv, ← hyv]
  exact hij

/-- C3 amended: the sort of line 229 is descending by dailyViews for every
report table: the sorted rows are a permutation of the input rows with
non-increasing dailyViews, at every size — pandas nargsort over the numpy
introsort sorts correctly unconditionally.  Stability, however, holds only
for tables of at most 16 rows, where the numpy default quicksort reduces to
its stable insertion sort: there the indexer is the permutation of the row
indices ordered by strictly decreasing dailyViews with ties in increasing
original position, and the sorted rows are exactly the rows taken in indexer
order.  For larger tables the default kind=quicksort gives no stability
guarantee (see the counterexample). -/
theorem sort_values_desc_stable :
    (∀ rows : List ThreadRecord,
        (sortValuesDesc rows).Perm rows ∧
        (sortValuesDesc rows).Pairwise (fun a b => b.dailyViews ≤ a.dailyViews)) ∧
    (∀ rows : List ThreadRecord, rows.length ≤ 16 →
        (nargsortDesc (rows.map ThreadRecord.dailyViews)).Perm (List.range rows.length) ∧
        (nargsortDesc (rows.map ThreadRecord.dailyViews)).Pairwise (fun i j =>
            (rows.map ThreadRecord.dailyViews).getD j 0
                < (rows.map ThreadRecord.dailyViews).getD i 0
              ∨ ((rows.map ThreadRecord.dailyViews).getD i 0
                    = (rows.map ThreadRecord.dailyViews).getD j 0 ∧ i < j)) ∧
        sortValuesDesc rows
          = (nargsortDesc (rows.map ThreadRecord.dailyViews)).filterMap
              (fun i => rows.get? i) ∧
        (sortValuesDesc rows).Pairwise (fun a b => b.dailyViews ≤ a.dailyViews)) := by
  constructor
  · intro rows
    exact ⟨sortValuesDesc_perm rows, sortValuesDesc_antitone rows⟩
  · intro rows h
    have hlen : (rows.map ThreadRecord.dailyViews).length = rows.length :=
      List.length_map _ _
    have hperm := nargsortDesc_perm_small (rows.map ThreadRecord.dailyViews)
      (by rw [hlen]; exact h)
    have hsorted := nargsortDesc_sorted_small (rows.map ThreadRecord.dailyViews)
      (by rw [hlen]; exact h)
    rw [hlen] at hperm
    exact ⟨hperm, hsorted, rfl, sortValuesDesc_antitone rows⟩

end Klpbbs
